import Mathlib

/-!
# Verification of the constituent-reconciliation pipeline

A shallow embedding, in Lean 4, of the pure transformation core of the
repository (`src/transform.py`, `src/validate.py`): identity
deduplication, email resolution, donation aggregation, tag
normalization, record assembly, tag counting and output validation.

Modelling conventions:
* pandas cells are strings; a missing cell (`NaN`) is modelled as the
  empty string, which is how every access site in the source treats it
  (each access goes through `_clean_str`, `fillna("")`, or an explicit
  `pd.notna` guard that we model with `Option`);
* Python `float` arithmetic is modelled with exact rationals `ℚ`;
* the lenient date parser `pd.to_datetime(..., errors="coerce")` is a
  library collaborator; the pipeline definitions take it as an explicit
  argument `pdate : String → Option Date` (`none` models `NaT`), and
  concrete evaluations instantiate it with an ISO-format parser;
* row order in a `DataFrame` is modelled by list order; where pandas
  orders result rows by group key (`groupby`, `Index.union`) we keep
  first-appearance order instead, which no verified property depends
  on (all later consumers merge by `Patron ID`).
-/

/-! ## String primitives (models of Python `str` operations) -/

/-- Model of Python `str.strip()` / `str.strip(chars)` on the front of a
character list: drop leading characters satisfying `p`. -/
def dropLeading (p : Char → Bool) (l : List Char) : List Char :=
  l.dropWhile p

/-- Drop trailing characters satisfying `p`. -/
def dropTrailing (p : Char → Bool) (l : List Char) : List Char :=
  (l.reverse.dropWhile p).reverse

/-- Strip characters satisfying `p` from both ends. -/
def stripBoth (p : Char → Bool) (l : List Char) : List Char :=
  dropTrailing p (dropLeading p l)

/-- Model of `transform._clean_str`: `str(x).strip()` (a `NaN` cell is
already modelled as `""`, which this fixes). -/
def cleanStr (s : String) : String :=
  ⟨stripBoth Char.isWhitespace s.data⟩

/-- Model of Python `str.lower()` (ASCII range, which is all the
pipeline's fixed comparands use). -/
def lowerStr (s : String) : String :=
  ⟨s.data.map Char.toLower⟩

/-- The characters stripped by `standardize_email`: `" <>\"'"`. -/
def emailWrapperChars : List Char :=
  [' ', '<', '>', '"', Char.ofNat 39]

/-- `transform.standardize_email`: clean, lowercase, strip the wrapper
characters `" <>\"'"` from both ends. -/
def standardize_email (raw : String) : String :=
  ⟨stripBoth (fun c => emailWrapperChars.contains c) (lowerStr (cleanStr raw)).data⟩

/-- Characters of the local part: everything before the first `'@'`
(model of `e.split("@", 1)[0]` when the count check has passed). -/
def localPartChars (l : List Char) : List Char :=
  l.takeWhile (fun c => c ≠ '@')

/-- Characters after the first `'@'` (model of `e.split("@", 1)[1]`). -/
def domainPartChars (l : List Char) : List Char :=
  (l.dropWhile (fun c => c ≠ '@')).drop 1

/-- `transform.is_valid_email`, translated clause by clause:
standardize, reject empty or containing a space, require exactly one
`'@'`, non-empty local and domain parts, and a `'.'` in the domain. -/
def is_valid_email (email : String) : Bool :=
  let e := (standardize_email email).data
  if e = [] ∨ e.contains ' ' then false
  else if e.count '@' ≠ 1 then false
  else
    let lp := localPartChars e
    let dp := domainPartChars e
    if lp = [] ∨ dp = [] then false
    else if ¬ dp.contains '.' then false
    else true

/-- The claim's validity predicate, following the spec's words: after
standardization the string contains exactly one `'@'`, has non-empty
local and domain parts, the domain contains at least one `'.'`, and the
whole string contains no whitespace. -/
def specValidEmail (email : String) : Bool :=
  let e := (standardize_email email).data
  e.count '@' = 1
    ∧ localPartChars e ≠ []
    ∧ domainPartChars e ≠ []
    ∧ (domainPartChars e).contains '.'
    ∧ ¬ e.any Char.isWhitespace

/-- The amended validity predicate: identical to `specValidEmail`
except that only the space character `' '` is rejected, matching the
code's `" " in e` test. -/
def specValidEmailAmended (email : String) : Bool :=
  let e := (standardize_email email).data
  e.count '@' = 1
    ∧ localPartChars e ≠ []
    ∧ domainPartChars e ≠ []
    ∧ (domainPartChars e).contains '.'
    ∧ ¬ e.contains ' '

example : is_valid_email "JANE@Example.com" = true := by decide
example : is_valid_email " <jane@example.com> " = true := by decide
example : is_valid_email "jane@example" = false := by decide
example : is_valid_email "jane@@example.com" = false := by decide
example : is_valid_email "ja ne@example.com" = false := by decide
example : standardize_email "JANE@Example.com" = "jane@example.com" := by decide

/-! ## Decimal digits, number rendering and parsing

Models of Python's `float(...)` on decimal literals (the only float
syntax this pipeline produces or consumes) and of `f"{x:,.2f}"`
formatting. Python `float` values are modelled by exact rationals. -/

/-- The character for a decimal digit value. -/
def digitChar (d : ℕ) : Char :=
  Char.ofNat (48 + d)

/-- Is `c` an ASCII decimal digit? -/
def isDigitChar (c : Char) : Bool :=
  48 ≤ c.toNat ∧ c.toNat ≤ 57

/-- Numeric value of a digit string, most significant first. -/
def digitsVal (cs : List Char) : ℕ :=
  cs.foldl (fun a c => 10 * a + (c.toNat - 48)) 0

/-- Render a natural number as decimal digits, most significant first;
`fuel` bounds the recursion depth (any `fuel > n` is exact). -/
def renderNatAux : ℕ → ℕ → List Char
  | 0, _ => []
  | fuel + 1, n =>
    if n < 10 then [digitChar n]
    else renderNatAux fuel (n / 10) ++ [digitChar (n % 10)]

/-- Render a natural number as decimal digits (`repr`-style, no sign). -/
def renderNat (n : ℕ) : List Char :=
  renderNatAux (n + 1) n

/-- Two-digit zero-padded rendering of `n % 100`. -/
def pad2 (n : ℕ) : List Char :=
  [digitChar (n / 10 % 10), digitChar (n % 10)]

/-- Four-digit zero-padded rendering of `n % 10000`. -/
def pad4 (n : ℕ) : List Char :=
  [digitChar (n / 1000 % 10), digitChar (n / 100 % 10),
   digitChar (n / 10 % 10), digitChar (n % 10)]

/-- Insert `','` before every third digit, counting from the right; the
input is the reversed digit list and `k` counts digits emitted since
the last separator. -/
def groupAux : List Char → ℕ → List Char
  | [], _ => []
  | c :: rest, k =>
    if k = 3 then ',' :: c :: groupAux rest 1
    else c :: groupAux rest (k + 1)

/-- Thousands grouping as produced by Python's `","` format flag. -/
def groupDigits (cs : List Char) : List Char :=
  (groupAux cs.reverse 0).reverse

/-- Digits of a whole number of cents, grouped, with a two-digit
fractional part: the body of `f"{x:,.2f}"` for non-negative `x`. -/
def renderCents (n : ℕ) : List Char :=
  groupDigits (renderNat (n / 100)) ++ '.' :: pad2 (n % 100)

/-- Round `q` to a whole number of cents, ties to even — the rounding
of Python's `f"{x:,.2f}"` (which is exact on cent-valued inputs). -/
def roundCents (q : ℚ) : ℤ :=
  let x : ℚ := q * 100
  let f : ℤ := ⌊x⌋
  if x - f < 1 / 2 then f
  else if 1 / 2 < x - f then f + 1
  else if f % 2 = 0 then f else f + 1

/-- `transform.format_currency` on a present amount: `f"${amount:,.2f}"`
(a missing amount never reaches the formatter in this embedding). -/
def format_currency (q : ℚ) : String :=
  ⟨'$' :: ((if q < 0 then ['-'] else []) ++ renderCents (roundCents q).natAbs)⟩

/-- All-digit test for a character list. -/
def allDigits (cs : List Char) : Bool :=
  cs.all isDigitChar

/-- Parse an unsigned decimal literal (`"12"`, `"12.5"`, `"12."`,
`".5"`): the fragment of Python `float` grammar this pipeline can
meet. -/
def parseUnsignedDec (cs : List Char) : Option ℚ :=
  if cs.count '.' = 0 then
    if cs ≠ [] ∧ allDigits cs then some (digitsVal cs : ℚ) else none
  else if cs.count '.' = 1 then
    let ip := cs.takeWhile (fun c => c ≠ '.')
    let fp := (cs.dropWhile (fun c => c ≠ '.')).drop 1
    if allDigits ip ∧ allDigits fp ∧ (ip ≠ [] ∨ fp ≠ []) then
      some ((digitsVal ip : ℚ) + (digitsVal fp : ℚ) / (10 : ℚ) ^ fp.length)
    else none
  else none

/-- Model of Python `float(s)` restricted to decimal notation: optional
sign, digits, at most one dot. -/
def parseDecimal (s : String) : Option ℚ :=
  match s.data with
  | [] => none
  | c :: rest =>
    if c = '-' then (parseUnsignedDec rest).map (fun q => -q)
    else if c = '+' then parseUnsignedDec rest
    else parseUnsignedDec (c :: rest)

/-- `transform.parse_currency_to_float`: clean, then drop every `'$'`
and `','`, strip, and parse as a float. -/
def parse_currency_to_float (raw : String) : Option ℚ :=
  let s := cleanStr raw
  if s = "" then none
  else parseDecimal (cleanStr ⟨s.data.filter (fun c => c ≠ '$' ∧ c ≠ ',')⟩)

example : parse_currency_to_float "abc" = none := by decide
example : parse_currency_to_float "" = none := by decide
example : renderCents 12345678 = "123,456.78".data := by decide
example : renderCents 0 = "0.00".data := by decide

/-! ### Rendering / parsing round-trip lemmas -/

theorem digitChar_toNat {d : ℕ} (h : d < 10) : (digitChar d).toNat = 48 + d := by
  interval_cases d <;> decide

theorem isDigitChar_digitChar {d : ℕ} (h : d < 10) : isDigitChar (digitChar d) = true := by
  interval_cases d <;> decide

theorem isDigitChar_spec {c : Char} (h : isDigitChar c = true) :
    48 ≤ c.toNat ∧ c.toNat ≤ 57 := by
  simpa [isDigitChar, decide_eq_true_eq] using h

theorem isDigitChar_ne {c x : Char} (h : isDigitChar c = true)
    (hx : isDigitChar x = false) : c ≠ x := by
  intro he
  rw [he, hx] at h
  cases h

theorem isDigitChar_not_whitespace {c : Char} (h : isDigitChar c = true) :
    c.isWhitespace = false := by
  cases hw : c.isWhitespace
  · rfl
  · exfalso
    simp [Char.isWhitespace] at hw
    rcases hw with ((rfl | rfl) | rfl) | rfl <;> exact absurd h (by decide)

theorem digitsVal_foldl (cs : List Char) (a : ℕ) :
    cs.foldl (fun a c => 10 * a + (c.toNat - 48)) a =
      a * 10 ^ cs.length + digitsVal cs := by
  induction cs generalizing a with
  | nil => simp [digitsVal]
  | cons c cs ih =>
    have hv : digitsVal (c :: cs) = cs.foldl (fun a c => 10 * a + (c.toNat - 48))
        (10 * 0 + (c.toNat - 48)) := rfl
    simp only [List.foldl_cons, List.length_cons, hv]
    rw [ih, ih (10 * 0 + (c.toNat - 48))]
    ring

theorem digitsVal_append (a b : List Char) :
    digitsVal (a ++ b) = digitsVal a * 10 ^ b.length + digitsVal b := by
  have hv : digitsVal (a ++ b) =
      b.foldl (fun a c => 10 * a + (c.toNat - 48)) (digitsVal a) := by
    simp [digitsVal, List.foldl_append]
  rw [hv, digitsVal_foldl]

theorem digitsVal_cons (c : Char) (cs : List Char) :
    digitsVal (c :: cs) = (c.toNat - 48) * 10 ^ cs.length + digitsVal cs := by
  have hv : digitsVal (c :: cs) = cs.foldl (fun a c => 10 * a + (c.toNat - 48))
      (10 * 0 + (c.toNat - 48)) := rfl
  rw [hv, digitsVal_foldl]
  ring_nf

theorem digitsVal_single {d : ℕ} (h : d < 10) : digitsVal [digitChar d] = d := by
  simp [digitsVal, digitChar_toNat h]

/-- On sufficient fuel, `renderNatAux` produces a non-empty all-digit
string whose value is `n`. -/
theorem renderNatAux_sound : ∀ (fuel n : ℕ), n < fuel →
    allDigits (renderNatAux fuel n) = true ∧
      digitsVal (renderNatAux fuel n) = n ∧ renderNatAux fuel n ≠ [] := by
  intro fuel
  induction fuel with
  | zero => omega
  | succ fuel ih =>
    intro n hn
    by_cases h10 : n < 10
    · simp only [renderNatAux, if_pos h10]
      exact ⟨by simp [allDigits, isDigitChar_digitChar h10],
        digitsVal_single h10, by simp⟩
    · have hdiv : n / 10 < fuel := by omega
      obtain ⟨hA, hV, hN⟩ := ih (n / 10) hdiv
      simp only [renderNatAux, if_neg h10]
      refine ⟨?_, ?_, by simp⟩
      · simp [allDigits] at hA ⊢
        exact ⟨hA, isDigitChar_digitChar (by omega)⟩
      · rw [digitsVal_append, hV, digitsVal_single (by omega)]
        simp
        omega

theorem renderNat_allDigits (n : ℕ) : allDigits (renderNat n) = true :=
  (renderNatAux_sound (n + 1) n (by omega)).1

theorem renderNat_val (n : ℕ) : digitsVal (renderNat n) = n :=
  (renderNatAux_sound (n + 1) n (by omega)).2.1

theorem renderNat_ne_nil (n : ℕ) : renderNat n ≠ [] :=
  (renderNatAux_sound (n + 1) n (by omega)).2.2

theorem pad2_allDigits (n : ℕ) : allDigits (pad2 n) = true := by
  simp [pad2, allDigits, isDigitChar_digitChar (Nat.mod_lt _ (by omega)),
    isDigitChar_digitChar (show n / 10 % 10 < 10 from Nat.mod_lt _ (by omega))]

theorem pad2_val {n : ℕ} (h : n < 100) : digitsVal (pad2 n) = n := by
  have h1 : n / 10 % 10 < 10 := Nat.mod_lt _ (by omega)
  have h2 : n % 10 < 10 := Nat.mod_lt _ (by omega)
  simp [pad2, digitsVal, digitChar_toNat h1, digitChar_toNat h2]
  omega

/-- Every character of a grouped digit string is a comma or from the
original list. -/
theorem groupAux_mem : ∀ (l : List Char) (k : ℕ) (c : Char),
    c ∈ groupAux l k → c = ',' ∨ c ∈ l := by
  intro l
  induction l with
  | nil => simp [groupAux]
  | cons x xs ih =>
    intro k c hc
    by_cases hk : k = 3 <;>
        simp only [groupAux, hk, if_true, if_false, reduceIte, List.mem_cons] at hc
    · rcases hc with h | h | h
      · exact Or.inl h
      · exact Or.inr (by simp [h])
      · rcases ih 1 c h with h | h
        · exact Or.inl h
        · exact Or.inr (by simp [h])
    · rcases hc with h | h
      · exact Or.inr (by simp [h])
      · rcases ih (k + 1) c h with h | h
        · exact Or.inl h
        · exact Or.inr (by simp [h])

/-- Removing the commas from a grouped digit string recovers the
digits (in reversed form, as `groupAux` works on the reversed list). -/
theorem groupAux_filter (p : Char → Bool) (hp : p ',' = false) :
    ∀ (l : List Char) (k : ℕ), (groupAux l k).filter p = l.filter p := by
  intro l
  induction l with
  | nil => simp [groupAux]
  | cons x xs ih =>
    intro k
    by_cases hk : k = 3 <;>
      simp [groupAux, hk, List.filter_cons, hp, ih]

theorem groupDigits_filter (p : Char → Bool) (hp : p ',' = false) (cs : List Char) :
    (groupDigits cs).filter p = cs.filter p := by
  unfold groupDigits
  rw [List.filter_reverse, groupAux_filter p hp, ← List.filter_reverse, List.reverse_reverse]

theorem dropWhile_eq_self_of (p : Char → Bool) (l : List Char)
    (h : ∀ c ∈ l, p c = false) : l.dropWhile p = l := by
  cases l with
  | nil => rfl
  | cons c cs => simp [List.dropWhile_cons, h c (by simp)]

theorem stripBoth_eq_self (p : Char → Bool) (l : List Char)
    (h : ∀ c ∈ l, p c = false) : stripBoth p l = l := by
  unfold stripBoth dropLeading dropTrailing
  rw [dropWhile_eq_self_of p l h, dropWhile_eq_self_of p l.reverse (by simpa using h),
    List.reverse_reverse]

theorem cleanStr_eq_self (l : List Char) (h : ∀ c ∈ l, c.isWhitespace = false) :
    cleanStr ⟨l⟩ = ⟨l⟩ := by
  show (⟨stripBoth Char.isWhitespace l⟩ : String) = ⟨l⟩
  rw [stripBoth_eq_self _ _ h]

theorem takeWhile_append_not (p : Char → Bool) (l r : List Char)
    (h : ∀ c ∈ l, p c = true) (x : Char) (hx : p x = false) :
    (l ++ x :: r).takeWhile p = l := by
  induction l with
  | nil => simp [List.takeWhile, hx]
  | cons c cs ih =>
    have hc : p c := h c (by simp)
    simp only [List.cons_append, List.takeWhile_cons, hc, if_true]
    rw [ih (fun d hd => h d (by simp [hd]))]

theorem dropWhile_append_not (p : Char → Bool) (l r : List Char)
    (h : ∀ c ∈ l, p c = true) (x : Char) (hx : p x = false) :
    (l ++ x :: r).dropWhile p = x :: r := by
  induction l with
  | nil => simp [List.dropWhile, hx]
  | cons c cs ih =>
    have hc : p c := h c (by simp)
    simp only [List.cons_append, List.dropWhile_cons, hc, if_true]
    exact ih (fun d hd => h d (by simp [hd]))

theorem allDigits_mem {cs : List Char} (h : allDigits cs = true) {c : Char}
    (hc : c ∈ cs) : isDigitChar c = true := by
  simp [allDigits, List.all_eq_true] at h
  exact h c hc

theorem renderCents_not_ws (n : ℕ) : ∀ c ∈ renderCents n, c.isWhitespace = false := by
  intro c hc
  unfold renderCents at hc
  rcases List.mem_append.mp hc with hg | hd
  · unfold groupDigits at hg
    rcases groupAux_mem _ _ _ (List.mem_reverse.mp hg) with rfl | hr
    · decide
    · exact isDigitChar_not_whitespace
        (allDigits_mem (renderNat_allDigits _) (List.mem_reverse.mp hr))
  · rcases hd with _ | ⟨_, hd⟩
    · decide
    · exact isDigitChar_not_whitespace (allDigits_mem (pad2_allDigits _) hd)

/-- Cleaning up after `replace`: filtering the `'$'` and `','` out of
the rendered cents leaves the plain digit string. -/
theorem renderCents_filter (n : ℕ) :
    (renderCents n).filter (fun c => c ≠ '$' ∧ c ≠ ',') =
      renderNat (n / 100) ++ '.' :: pad2 (n % 100) := by
  set p : Char → Bool := fun c => c ≠ '$' ∧ c ≠ ',' with hp
  have hdig : ∀ (cs : List Char), allDigits cs = true → cs.filter p = cs := by
    intro cs hcs
    apply List.filter_eq_self.mpr
    intro c hc
    have h := allDigits_mem hcs hc
    simp [hp, decide_eq_true_eq]
    exact ⟨isDigitChar_ne h (by decide), isDigitChar_ne h (by decide)⟩
  unfold renderCents
  rw [List.filter_append, groupDigits_filter p (by simp [hp]),
    hdig _ (renderNat_allDigits _), List.filter_cons]
  have hpd : p '.' = true := by decide
  rw [hpd]
  simp only [if_true]
  rw [hdig _ (pad2_allDigits _)]

theorem parseDecimal_mk (c : Char) (rest : List Char) :
    parseDecimal ⟨c :: rest⟩ =
      if c = '-' then (parseUnsignedDec rest).map (fun q => -q)
      else if c = '+' then parseUnsignedDec rest
      else parseUnsignedDec (c :: rest) := rfl

theorem count_eq_zero_of_allDigits {cs : List Char} (h : allDigits cs = true)
    {x : Char} (hx : isDigitChar x = false) : cs.count x = 0 := by
  rw [List.count_eq_zero]
  intro hmem
  rw [allDigits_mem h hmem] at hx
  cases hx

/-- Parsing a rendered `⟨integer⟩.⟨two-digit⟩` decimal. -/
theorem parseUnsignedDec_render (i m : ℕ) (hm : m < 100) :
    parseUnsignedDec (renderNat i ++ '.' :: pad2 m) =
      some ((i : ℚ) + (m : ℚ) / 10 ^ 2) := by
  have hdot : isDigitChar '.' = false := by decide
  have hcount : (renderNat i ++ '.' :: pad2 m).count '.' = 1 := by
    rw [List.count_append, count_eq_zero_of_allDigits (renderNat_allDigits i) hdot,
      List.count_cons]
    rw [count_eq_zero_of_allDigits (pad2_allDigits m) hdot]
    simp
  have hdigne : ∀ c ∈ renderNat i, (fun c => c ≠ '.' : Char → Bool) c = true := by
    intro c hc
    simp [decide_eq_true_eq]
    exact isDigitChar_ne (allDigits_mem (renderNat_allDigits i) hc) hdot
  have htake : (renderNat i ++ '.' :: pad2 m).takeWhile (fun c => c ≠ '.') = renderNat i :=
    takeWhile_append_not _ _ _ hdigne '.' (by simp)
  have hdrop : (renderNat i ++ '.' :: pad2 m).dropWhile (fun c => c ≠ '.') = '.' :: pad2 m :=
    dropWhile_append_not _ _ _ hdigne '.' (by simp)
  unfold parseUnsignedDec
  rw [hcount]
  simp only [if_neg (by omega : ¬ (1 = 0)), if_pos rfl, htake, hdrop, List.drop_one,
    List.tail_cons]
  have hcond : allDigits (renderNat i) = true ∧ allDigits (pad2 m) = true ∧
      (renderNat i ≠ [] ∨ pad2 m ≠ []) :=
    ⟨renderNat_allDigits i, pad2_allDigits m, Or.inl (renderNat_ne_nil i)⟩
  rw [if_pos hcond, renderNat_val, pad2_val hm]
  simp [pad2]

theorem roundCents_cent (z : ℤ) : roundCents ((z : ℚ) / 100) = z := by
  have hx : ((z : ℚ) / 100) * 100 = (z : ℚ) := by
    field_simp
  simp only [roundCents, hx, Int.floor_intCast]
  norm_num

theorem cent_neg_iff (z : ℤ) : ((z : ℚ) / 100 < 0) ↔ z < 0 := by
  constructor
  · intro h
    by_contra hz
    push_neg at hz
    have : (0 : ℚ) ≤ (z : ℚ) / 100 := by positivity
    linarith
  · intro h
    have hz : (z : ℚ) < 0 := by exact_mod_cast h
    have : (0 : ℚ) < 100 := by norm_num
    exact div_neg_of_neg_of_pos hz this

theorem format_currency_cent (z : ℤ) :
    format_currency ((z : ℚ) / 100) =
      ⟨'$' :: ((if z < 0 then ['-'] else []) ++ renderCents z.natAbs)⟩ := by
  unfold format_currency
  rw [roundCents_cent, if_congr (cent_neg_iff z) rfl rfl]

theorem natAbs_cent_cast (n : ℕ) :
    ((n / 100 : ℕ) : ℚ) + ((n % 100 : ℕ) : ℚ) / 10 ^ 2 = (n : ℚ) / 100 := by
  have h : 100 * (n / 100) + n % 100 = n := Nat.div_add_mod n 100
  have hq : 100 * ((n / 100 : ℕ) : ℚ) + ((n % 100 : ℕ) : ℚ) = (n : ℚ) := by
    exact_mod_cast congrArg (Nat.cast : ℕ → ℚ) h
  field_simp
  linarith

theorem string_mk_eq_empty_iff (l : List Char) : (⟨l⟩ : String) = "" ↔ l = [] := by
  constructor
  · intro h
    exact congrArg String.data h
  · intro h
    rw [h]

/-- `parse_currency_to_float` on a whitespace-free non-empty string:
the two `strip`s are identities. -/
theorem parse_currency_data (l : List Char) (h : ∀ c ∈ l, c.isWhitespace = false)
    (hne : l ≠ []) :
    parse_currency_to_float ⟨l⟩ =
      parseDecimal (cleanStr ⟨l.filter (fun c => c ≠ '$' ∧ c ≠ ',')⟩) := by
  unfold parse_currency_to_float
  have h1 : cleanStr ⟨l⟩ = ⟨l⟩ := cleanStr_eq_self l h
  simp only [h1]
  rw [if_neg (fun hc => hne ((string_mk_eq_empty_iff l).mp hc))]

theorem filter_not_ws (l : List Char) (h : ∀ c ∈ l, c.isWhitespace = false) :
    ∀ c ∈ l.filter (fun c => c ≠ '$' ∧ c ≠ ','), c.isWhitespace = false :=
  fun c hc => h c (List.mem_of_mem_filter hc)

/-- Parsing back a formatted cent-valued amount recovers it exactly. -/
theorem parse_format_cent (z : ℤ) :
    parse_currency_to_float (format_currency ((z : ℚ) / 100)) = some ((z : ℚ) / 100) := by
  rw [format_currency_cent]
  set n : ℕ := z.natAbs with hn
  have hm : n % 100 < 100 := Nat.mod_lt _ (by omega)
  set plain : List Char := renderNat (n / 100) ++ '.' :: pad2 (n % 100) with hplain
  have hplain_nws : ∀ c ∈ plain, c.isWhitespace = false := by
    intro c hc
    rcases List.mem_append.mp hc with hd | hd
    · exact isDigitChar_not_whitespace (allDigits_mem (renderNat_allDigits _) hd)
    · rcases hd with _ | ⟨_, hd⟩
      · decide
      · exact isDigitChar_not_whitespace (allDigits_mem (pad2_allDigits _) hd)
  obtain ⟨c0, cs0, hc0⟩ := List.exists_cons_of_ne_nil (renderNat_ne_nil (n / 100))
  have hc0dig : isDigitChar c0 = true :=
    allDigits_mem (renderNat_allDigits (n / 100)) (by rw [hc0]; simp)
  have hplain_parse : parseDecimal ⟨plain⟩ = some ((n : ℚ) / 100) := by
    have hsplit : plain = c0 :: (cs0 ++ '.' :: pad2 (n % 100)) := by
      rw [hplain, hc0]
      simp
    rw [hsplit, parseDecimal_mk,
      if_neg (isDigitChar_ne hc0dig (by decide) : ¬ c0 = '-'),
      if_neg (isDigitChar_ne hc0dig (by decide) : ¬ c0 = '+'),
      show c0 :: (cs0 ++ '.' :: pad2 (n % 100)) = plain from hsplit.symm, hplain,
      parseUnsignedDec_render _ _ hm, natAbs_cent_cast]
  have hclean_plain : cleanStr ⟨plain⟩ = ⟨plain⟩ := cleanStr_eq_self plain hplain_nws
  by_cases hz : z < 0
  · rw [if_pos hz]
    have hdata : '$' :: (['-'] ++ renderCents n) = '$' :: '-' :: renderCents n := rfl
    rw [hdata]
    have hnws : ∀ c ∈ '$' :: '-' :: renderCents n, c.isWhitespace = false := by
      intro c hc
      rcases hc with _ | ⟨_, hc⟩
      · decide
      rcases hc with _ | ⟨_, hc⟩
      · decide
      · exact renderCents_not_ws _ c hc
    rw [parse_currency_data _ hnws (by simp)]
    have hfil : ('$' :: '-' :: renderCents n).filter (fun c => c ≠ '$' ∧ c ≠ ',') =
        '-' :: plain := by
      rw [List.filter_cons, List.filter_cons]
      simp only [show (fun c => c ≠ '$' ∧ c ≠ ',' : Char → Bool) '$' = false by decide,
        show (fun c => c ≠ '$' ∧ c ≠ ',' : Char → Bool) '-' = true by decide,
        if_false, if_true, Bool.false_eq_true, renderCents_filter]
    rw [hfil]
    have hclean2 : cleanStr ⟨'-' :: plain⟩ = ⟨'-' :: plain⟩ := by
      apply cleanStr_eq_self
      intro c hc
      rcases hc with _ | ⟨_, hc⟩
      · decide
      · exact hplain_nws c hc
    rw [hclean2, show (⟨'-' :: plain⟩ : String) = ⟨'-' :: plain⟩ from rfl, parseDecimal_mk,
      if_pos rfl]
    have : parseUnsignedDec plain = some ((n : ℚ) / 100) := by
      have := hplain_parse
      rw [show (⟨plain⟩ : String) = ⟨c0 :: (cs0 ++ '.' :: pad2 (n % 100))⟩ by
          rw [hplain, hc0]; rfl] at this
      rw [parseDecimal_mk, if_neg (isDigitChar_ne hc0dig (by decide) : ¬ c0 = '-'),
        if_neg (isDigitChar_ne hc0dig (by decide) : ¬ c0 = '+')] at this
      rw [hplain, hc0]
      simpa using this
    rw [this]
    simp only [Option.map_some']
    congr 1
    have hcast : ((n : ℚ)) = -((z : ℚ)) := by
      rw [hn]
      push_cast [Int.cast_natAbs]
      exact abs_of_neg (by exact_mod_cast hz)
    rw [hcast]
    ring
  · rw [if_neg hz]
    have hdata : '$' :: ([] ++ renderCents n) = '$' :: renderCents n := rfl
    rw [hdata]
    have hnws : ∀ c ∈ '$' :: renderCents n, c.isWhitespace = false := by
      intro c hc
      rcases hc with _ | ⟨_, hc⟩
      · decide
      · exact renderCents_not_ws _ c hc
    rw [parse_currency_data _ hnws (by simp)]
    have hfil : ('$' :: renderCents n).filter (fun c => c ≠ '$' ∧ c ≠ ',') = plain := by
      rw [List.filter_cons]
      simp only [show (fun c => c ≠ '$' ∧ c ≠ ',' : Char → Bool) '$' = false by decide,
        if_false, Bool.false_eq_true, renderCents_filter]
    rw [hfil, hclean_plain, hplain_parse]
    congr 1
    have hcast : ((n : ℚ)) = ((z : ℚ)) := by
      rw [hn]
      push_cast [Int.cast_natAbs]
      exact abs_of_nonneg (by exact_mod_cast not_lt.mp hz)
    rw [hcast]

/-! ## Tag splitting and normalization -/

/-- Model of Python `s.split(",")`: split a character list at every
comma (empty pieces preserved, result always non-empty). -/
def splitComma : List Char → List (List Char)
  | [] => [[]]
  | c :: rest =>
    match splitComma rest with
    | [] => [[c]]
    | h :: t => if c = ',' then [] :: h :: t else (c :: h) :: t

theorem splitComma_ne_nil (l : List Char) : splitComma l ≠ [] := by
  cases l with
  | nil => simp [splitComma]
  | cons c rest =>
    simp only [splitComma]
    cases splitComma rest with
    | nil => simp
    | cons h t =>
      by_cases hc : c = ',' <;> simp [hc]

example : splitComma "a, b,,c".data = ["a".data, " b".data, "".data, "c".data] := by decide
example : splitComma "".data = ["".data] := by decide

/-- The final dedup loop shared by `split_tags` and
`apply_tag_mapping`: skip empties, keep the first string per
lower-cased key. -/
def dedupNonemptyByLowerAux (seen : List String) : List String → List String
  | [] => []
  | t :: ts =>
    if t = "" then dedupNonemptyByLowerAux seen ts
    else if lowerStr t ∈ seen then dedupNonemptyByLowerAux seen ts
    else t :: dedupNonemptyByLowerAux (lowerStr t :: seen) ts

/-- Case-insensitive de-duplication keeping the first occurrence, as
the spec words it (no empty-dropping). -/
def dedupCIAux (seen : List String) : List String → List String
  | [] => []
  | t :: ts =>
    if lowerStr t ∈ seen then dedupCIAux seen ts
    else t :: dedupCIAux (lowerStr t :: seen) ts

theorem dedupNonempty_eq_filter_dedup (ts : List String) : ∀ seen,
    dedupNonemptyByLowerAux seen ts = dedupCIAux seen (ts.filter (fun t => t ≠ "")) := by
  induction ts with
  | nil => intro seen; rfl
  | cons t ts ih =>
    intro seen
    by_cases ht : t = ""
    · simp [dedupNonemptyByLowerAux, dedupCIAux, ht, List.filter_cons, ih]
    · by_cases hs : lowerStr t ∈ seen <;>
        simp [dedupNonemptyByLowerAux, dedupCIAux, ht, hs, List.filter_cons, ih]

theorem dedupCIAux_subset {seen : List String} {ts : List String} {x : String}
    (hx : x ∈ dedupCIAux seen ts) : x ∈ ts := by
  induction ts generalizing seen with
  | nil => simp [dedupCIAux] at hx
  | cons t ts ih =>
    simp only [dedupCIAux] at hx
    by_cases hs : lowerStr t ∈ seen
    · simp only [hs, if_true] at hx
      exact List.mem_cons_of_mem _ (ih hx)
    · simp only [hs, if_false] at hx
      rw [List.mem_cons] at hx
      rcases hx with rfl | hx
      · exact List.mem_cons_self x ts
      · exact List.mem_cons_of_mem _ (ih hx)

theorem dedupCIAux_not_seen {ts : List String} : ∀ {seen : List String} {x : String},
    x ∈ dedupCIAux seen ts → lowerStr x ∉ seen := by
  induction ts with
  | nil => intro seen x hx; simp [dedupCIAux] at hx
  | cons t ts ih =>
    intro seen x hx
    simp only [dedupCIAux] at hx
    by_cases hs : lowerStr t ∈ seen
    · simp only [hs, if_true] at hx
      exact ih hx
    · simp only [hs, if_false] at hx
      rw [List.mem_cons] at hx
      rcases hx with rfl | hx
      · exact hs
      · intro hseen
        exact ih hx (List.mem_cons_of_mem _ hseen)

theorem dedupCIAux_pairwise (ts : List String) : ∀ (seen : List String),
    (dedupCIAux seen ts).Pairwise (fun a b => lowerStr a ≠ lowerStr b) := by
  induction ts with
  | nil => intro seen; simp [dedupCIAux]
  | cons t ts ih =>
    intro seen
    simp only [dedupCIAux]
    by_cases hs : lowerStr t ∈ seen
    · simpa [hs] using ih seen
    · simp only [hs, if_false]
      refine List.Pairwise.cons ?_ (ih _)
      intro b hb heq
      exact dedupCIAux_not_seen hb (by rw [← heq]; exact List.mem_cons_self _ _)

theorem ws_ne_comma {c : Char} (h : c.isWhitespace = true) : c ≠ ',' := by
  intro he
  rw [he] at h
  exact absurd h (by decide)

theorem stripBoth_cons_ws {c : Char} (hc : c.isWhitespace = true) (h : List Char) :
    stripBoth Char.isWhitespace (c :: h) = stripBoth Char.isWhitespace h := by
  unfold stripBoth dropLeading
  rw [List.dropWhile_cons, if_pos hc]

/-- Trimming the pieces erases a leading-whitespace strip of the whole
string. -/
theorem splitComma_trim_dropLeading (l : List Char) :
    (splitComma (l.dropWhile Char.isWhitespace)).map (stripBoth Char.isWhitespace) =
      (splitComma l).map (stripBoth Char.isWhitespace) := by
  induction l with
  | nil => rfl
  | cons c rest ih =>
    by_cases hc : c.isWhitespace = true
    · rw [List.dropWhile_cons, if_pos hc, ih]
      simp only [splitComma]
      cases hsp : splitComma rest with
      | nil => exact absurd hsp (splitComma_ne_nil rest)
      | cons h t =>
        dsimp only
        rw [if_neg (ws_ne_comma hc)]
        simp only [List.map_cons, stripBoth_cons_ws hc]
    · rw [List.dropWhile_cons, if_neg hc]

theorem dropWhile_append_of_ne_nil (p : Char → Bool) (x y : List Char)
    (h : x.dropWhile p ≠ []) : (x ++ y).dropWhile p = x.dropWhile p ++ y := by
  induction x with
  | nil => exact absurd rfl h
  | cons c x ih =>
    by_cases hc : p c = true
    · have h2 : x.dropWhile p ≠ [] := by
        rwa [List.dropWhile_cons, if_pos hc] at h
      rw [List.cons_append, List.dropWhile_cons, if_pos hc, List.dropWhile_cons, if_pos hc]
      exact ih h2
    · rw [List.cons_append, List.dropWhile_cons, if_neg hc, List.dropWhile_cons, if_neg hc,
        List.cons_append]

theorem dropWhile_append_of_nil (p : Char → Bool) (x y : List Char)
    (h : x.dropWhile p = []) : (x ++ y).dropWhile p = y.dropWhile p := by
  induction x with
  | nil => rfl
  | cons c x ih =>
    rw [List.dropWhile_cons] at h
    by_cases hc : p c
    · rw [if_pos hc] at h
      rw [List.cons_append, List.dropWhile_cons, if_pos hc]
      exact ih h
    · rw [if_neg hc] at h
      cases h

/-- Trimming absorbs a trailing whitespace character. -/
theorem stripBoth_append_ws (x : List Char) (c : Char) (hc : c.isWhitespace = true) :
    stripBoth Char.isWhitespace (x ++ [c]) = stripBoth Char.isWhitespace x := by
  by_cases hx : x.dropWhile Char.isWhitespace = []
  · unfold stripBoth dropLeading
    rw [dropWhile_append_of_nil _ _ _ hx, hx, List.dropWhile_cons, if_pos hc]
    rfl
  · unfold stripBoth dropLeading
    rw [dropWhile_append_of_ne_nil _ _ _ hx]
    unfold dropTrailing
    rw [List.reverse_append, List.reverse_singleton, List.singleton_append,
      List.dropWhile_cons, if_pos hc]

/-- Every string splits as its trailing-whitespace-stripped part plus
an all-whitespace suffix. -/
theorem exists_ws_suffix (l : List Char) :
    ∃ suf, l = dropTrailing Char.isWhitespace l ++ suf ∧
      ∀ c ∈ suf, c.isWhitespace = true := by
  refine ⟨(l.reverse.takeWhile Char.isWhitespace).reverse, ?_, ?_⟩
  · unfold dropTrailing
    rw [← List.reverse_append, List.takeWhile_append_dropWhile, List.reverse_reverse]
  · intro c hc
    exact List.mem_takeWhile_imp (List.mem_reverse.mp hc)

/-- One unfolding step of `splitComma`. -/
theorem splitComma_cons (d : Char) (a : List Char) :
    splitComma (d :: a) =
      match splitComma a with
      | [] => [[d]]
      | h :: t => if d = ',' then [] :: h :: t else (d :: h) :: t := rfl

/-- The last piece of a comma-split, and how appending a non-comma
character extends it. -/
theorem splitComma_last (a : List Char) :
    ∃ ini lst, splitComma a = ini ++ [lst] ∧
      ∀ c, c ≠ ',' → splitComma (a ++ [c]) = ini ++ [lst ++ [c]] := by
  induction a with
  | nil =>
    refine ⟨[], [], rfl, ?_⟩
    intro c hc
    simp [splitComma, hc]
  | cons d a ih =>
    obtain ⟨ini, lst, h1, h2⟩ := ih
    by_cases hd : d = ','
    · subst hd
      refine ⟨[] :: ini, lst, ?_, ?_⟩
      · rw [splitComma_cons, h1]
        cases ini <;> simp
      · intro c hc
        rw [List.cons_append, splitComma_cons, h2 c hc]
        cases ini <;> simp
    · cases ini with
      | nil =>
        refine ⟨[], d :: lst, ?_, ?_⟩
        · rw [splitComma_cons, h1]
          simp [hd]
        · intro c hc
          rw [List.cons_append, splitComma_cons, h2 c hc]
          simp [hd]
      | cons i it =>
        refine ⟨(d :: i) :: it, lst, ?_, ?_⟩
        · rw [splitComma_cons, h1]
          simp [hd]
        · intro c hc
          rw [List.cons_append, splitComma_cons, h2 c hc]
          simp [hd]

/-- Trimming the pieces erases an all-whitespace suffix of the whole
string. -/
theorem splitComma_trim_append_ws (suf : List Char)
    (hsuf : ∀ c ∈ suf, c.isWhitespace = true) : ∀ a,
    (splitComma (a ++ suf)).map (stripBoth Char.isWhitespace) =
      (splitComma a).map (stripBoth Char.isWhitespace) := by
  induction suf using List.reverseRecOn with
  | nil => simp
  | append_singleton s c ih =>
    intro a
    have hc : c.isWhitespace = true := hsuf c (by simp)
    have hs : ∀ x ∈ s, x.isWhitespace = true := fun x hx => hsuf x (by simp [hx])
    obtain ⟨ini, lst, h1, h2⟩ := splitComma_last (a ++ s)
    rw [← List.append_assoc, h2 c (ws_ne_comma hc), List.map_append, List.map_singleton,
      stripBoth_append_ws _ _ hc]
    have hback : List.map (stripBoth Char.isWhitespace) ini ++ [stripBoth Char.isWhitespace lst]
        = List.map (stripBoth Char.isWhitespace) (ini ++ [lst]) := by simp
    rw [hback, ← h1]
    exact ih hs a

/-- Cleaning the whole string first does not change the trimmed
pieces: the interesting commutation behind `split_tags`. -/
theorem splitComma_trim_stripBoth (l : List Char) :
    (splitComma (stripBoth Char.isWhitespace l)).map (stripBoth Char.isWhitespace) =
      (splitComma l).map (stripBoth Char.isWhitespace) := by
  obtain ⟨suf, hdec, hsuf⟩ := exists_ws_suffix (l.dropWhile Char.isWhitespace)
  calc (splitComma (stripBoth Char.isWhitespace l)).map (stripBoth Char.isWhitespace)
      = (splitComma (dropTrailing Char.isWhitespace
          (l.dropWhile Char.isWhitespace))).map (stripBoth Char.isWhitespace) := rfl
    _ = (splitComma (dropTrailing Char.isWhitespace (l.dropWhile Char.isWhitespace)
          ++ suf)).map (stripBoth Char.isWhitespace) :=
        (splitComma_trim_append_ws suf hsuf _).symm
    _ = (splitComma (l.dropWhile Char.isWhitespace)).map (stripBoth Char.isWhitespace) := by
        rw [← hdec]
    _ = (splitComma l).map (stripBoth Char.isWhitespace) := splitComma_trim_dropLeading l

theorem dropWhile_head_false (p : Char → Bool) (l : List Char) (c : Char) (cs : List Char)
    (h : l.dropWhile p = c :: cs) : p c = false := by
  induction l with
  | nil => cases h
  | cons d l ih =>
    rw [List.dropWhile_cons] at h
    by_cases hd : p d = true
    · rw [if_pos hd] at h
      exact ih h
    · rw [if_neg hd] at h
      cases h
      simpa using hd

theorem dropWhile_idem (p : Char → Bool) (l : List Char) :
    (l.dropWhile p).dropWhile p = l.dropWhile p := by
  cases h : l.dropWhile p with
  | nil => rfl
  | cons c cs =>
    rw [List.dropWhile_cons, if_neg]
    simp [dropWhile_head_false p l c cs h]

/-- Every list splits as its `dropTrailing` part plus a suffix whose
characters all satisfy `p`. -/
theorem exists_suffix_all (p : Char → Bool) (l : List Char) :
    ∃ suf, l = dropTrailing p l ++ suf ∧ ∀ c ∈ suf, p c = true := by
  refine ⟨(l.reverse.takeWhile p).reverse, ?_, ?_⟩
  · unfold dropTrailing
    rw [← List.reverse_append, List.takeWhile_append_dropWhile, List.reverse_reverse]
  · intro c hc
    exact List.mem_takeWhile_imp (List.mem_reverse.mp hc)

/-- Python `strip` is idempotent. -/
theorem stripBoth_idem (p : Char → Bool) (l : List Char) :
    stripBoth p (stripBoth p l) = stripBoth p l := by
  set A := l.dropWhile p with hA
  have hstrip : stripBoth p l = dropTrailing p A := rfl
  set B := dropTrailing p A with hB
  have hBrev : B.reverse = A.reverse.dropWhile p := by
    rw [hB]
    unfold dropTrailing
    rw [List.reverse_reverse]
  have hBdrop : B.dropWhile p = B := by
    cases hb : B with
    | nil => rfl
    | cons b bs =>
      obtain ⟨suf, hdec, _⟩ := exists_suffix_all p A
      rw [← hB] at hdec
      have hAeq : A = b :: (bs ++ suf) := by rw [hdec, hb]; simp
      have hpb : p b = false := dropWhile_head_false p l b (bs ++ suf) (by rw [← hA, hAeq])
      rw [List.dropWhile_cons, if_neg (by simp [hpb])]
  have hBtrail : dropTrailing p B = B := by
    unfold dropTrailing
    rw [hBrev, dropWhile_idem, ← hBrev, List.reverse_reverse]
  rw [hstrip]
  show dropTrailing p (B.dropWhile p) = B
  rw [hBdrop, hBtrail]

theorem cleanStr_idem (s : String) : cleanStr (cleanStr s) = cleanStr s := by
  show (⟨stripBoth Char.isWhitespace (stripBoth Char.isWhitespace s.data)⟩ : String) = _
  rw [stripBoth_idem]
  rfl

/-- Model of Python `dict.get` over the tag mapping (keys unique in a
dict; first match). -/
def lookupAssoc : List (String × String) → String → Option String
  | [], _ => none
  | p :: rest, k => if p.1 = k then some p.2 else lookupAssoc rest k

theorem lookupAssoc_mem {m : List (String × String)} {k v : String}
    (h : lookupAssoc m k = some v) : ∃ p ∈ m, p.2 = v := by
  induction m with
  | nil => cases h
  | cons p rest ih =>
    rw [lookupAssoc] at h
    by_cases hp : p.1 = k
    · rw [if_pos hp] at h
      exact ⟨p, by simp, Option.some.inj h⟩
    · rw [if_neg hp] at h
      obtain ⟨q, hq, hv⟩ := ih h
      exact ⟨q, by simp [hq], hv⟩

/-- `transform.split_tags`: clean the raw field, return `[]` when it is
empty, otherwise split on commas, trim each piece and run the loop that
drops empties and de-duplicates case-insensitively keeping the first
casing and order. -/
def split_tags (raw : String) : List String :=
  let s := cleanStr raw
  if s = "" then []
  else dedupNonemptyByLowerAux [] ((splitComma s.data).map (fun p => cleanStr ⟨p⟩))

/-- `transform.apply_tag_mapping`: look every tag up by its trimmed
lower-cased key (keeping the tag itself when absent), clean the mapped
value, and run the loop that drops empties and de-duplicates
case-insensitively. -/
def apply_tag_mapping (tags : List String) (mapping : List (String × String)) : List String :=
  dedupNonemptyByLowerAux []
    (tags.map (fun t => cleanStr ((lookupAssoc mapping (lowerStr (cleanStr t))).getD t)))

/-- The spec's *local* tag list, step for step: split on comma, trim
each piece, drop empty pieces, de-duplicate case-insensitively
preserving first-seen casing and order. -/
def specLocalTags (raw : String) : List String :=
  dedupCIAux [] (((splitComma raw.data).map (fun p => cleanStr ⟨p⟩)).filter (fun t => t ≠ ""))

/-- The spec's *final* tag list: map each local tag through the mapping
with case-insensitive lookup (unmapped tags pass through unchanged),
drop tags that map to the empty string, de-duplicate case-insensitively
again. -/
def specFinalTags (raw : String) (mapping : List (String × String)) : List String :=
  dedupCIAux []
    (((specLocalTags raw).map (fun t => (lookupAssoc mapping (lowerStr t)).getD t)).filter
      (fun t => t ≠ ""))

example : split_tags "Board, board, Donor" = ["Board", "Donor"] := by decide
example : apply_tag_mapping ["Board", "Donor"] [("donor", "Major Donor")] =
    ["Board", "Major Donor"] := by decide
example : split_tags " , ,, " = [] := by decide

theorem split_tags_eq_specLocal (raw : String) : split_tags raw = specLocalTags raw := by
  have hdata : (cleanStr raw).data = stripBoth Char.isWhitespace raw.data := rfl
  have hf : ∀ l : List (List Char),
      l.map (fun p => (cleanStr ⟨p⟩ : String)) =
        (l.map (stripBoth Char.isWhitespace)).map (fun d => (⟨d⟩ : String)) := by
    intro l
    rw [List.map_map]
    rfl
  have hcomm : (splitComma (cleanStr raw).data).map (fun p => (cleanStr ⟨p⟩ : String))
      = (splitComma raw.data).map (fun p => (cleanStr ⟨p⟩ : String)) := by
    rw [hf, hf, hdata, splitComma_trim_stripBoth]
  have hsplit : split_tags raw =
      if cleanStr raw = "" then []
      else dedupNonemptyByLowerAux []
        ((splitComma (cleanStr raw).data).map (fun p => cleanStr ⟨p⟩)) := rfl
  rw [hsplit]
  by_cases h : cleanStr raw = ""
  · rw [if_pos h]
    have hnil : (cleanStr raw).data = [] := by rw [h]
    have : (splitComma raw.data).map (fun p => (cleanStr ⟨p⟩ : String)) = [""] := by
      rw [← hcomm, hnil]
      rfl
    unfold specLocalTags
    rw [this]
    rfl
  · rw [if_neg h, dedupNonempty_eq_filter_dedup, hcomm]
    rfl

theorem split_tags_clean {raw : String} {t : String} (ht : t ∈ split_tags raw) :
    cleanStr t = t := by
  rw [split_tags_eq_specLocal] at ht
  unfold specLocalTags at ht
  have hmem := dedupCIAux_subset ht
  obtain ⟨hmap, -⟩ := List.mem_filter.mp hmem
  obtain ⟨p, -, hp⟩ := List.mem_map.mp hmap
  rw [← hp]
  exact cleanStr_idem _

theorem apply_tag_mapping_map_eq (raw : String) (m : List (String × String))
    (hm : ∀ p ∈ m, cleanStr p.2 = p.2) :
    (split_tags raw).map
        (fun t => cleanStr ((lookupAssoc m (lowerStr (cleanStr t))).getD t)) =
      (specLocalTags raw).map (fun t => (lookupAssoc m (lowerStr t)).getD t) := by
  rw [← split_tags_eq_specLocal]
  apply List.map_congr_left
  intro t ht
  rw [split_tags_clean ht]
  cases hl : lookupAssoc m (lowerStr t) with
  | none => simpa using split_tags_clean ht
  | some v =>
    obtain ⟨p, hp, hv⟩ := lookupAssoc_mem hl
    simp only [Option.getD_some]
    rw [← hv]
    exact hm p hp

theorem apply_tag_mapping_eq_spec (raw : String) (m : List (String × String))
    (hm : ∀ p ∈ m, cleanStr p.2 = p.2) :
    apply_tag_mapping (split_tags raw) m = specFinalTags raw m := by
  unfold apply_tag_mapping specFinalTags
  rw [dedupNonempty_eq_filter_dedup, apply_tag_mapping_map_eq raw m hm]

theorem is_valid_email_eq_amended (email : String) :
    is_valid_email email = specValidEmailAmended email := by
  unfold is_valid_email specValidEmailAmended
  by_cases hsp : ' ' ∈ (standardize_email email).data
  · simp [hsp]
  · by_cases hce : (standardize_email email).data = []
    · simp [hce, hsp]
    · by_cases hcount : (standardize_email email).data.count '@' = 1
      · by_cases hlp : localPartChars (standardize_email email).data = []
        · simp [hsp, hce, hcount, hlp]
        · by_cases hdp : domainPartChars (standardize_email email).data = []
          · simp [hsp, hce, hcount, hlp, hdp]
          · by_cases hdot : '.' ∈ domainPartChars (standardize_email email).data
            · simp [hsp, hce, hcount, hlp, hdp, hdot]
            · simp [hsp, hce, hcount, hlp, hdp, hdot]
      · simp [hsp, hce, hcount]

/-- C4, counterexample to the claim as stated: the address
`"a<TAB>b@c.d"` contains whitespace (a tab), so the claim's predicate
rejects it, but `is_valid_email` accepts it — the code only tests for
the space character `' '`. -/
theorem email_validation_whitespace_cex :
    is_valid_email "a\tb@c.d" = true ∧ specValidEmail "a\tb@c.d" = false := by
  constructor
  · decide
  · decide

/-- C4 (amended): for every input string, `is_valid_email` returns true
if and only if, after lowercasing and trimming surrounding
quote/bracket characters (`standardize_email`), the string contains
exactly one `'@'`, has non-empty local and domain parts, the domain
contains at least one `'.'`, and the whole string contains no space
character `' '` (other whitespace, such as tab, is not rejected). -/
theorem email_validation_amended (email : String) :
    is_valid_email email = specValidEmailAmended email :=
  is_valid_email_eq_amended email

/-- C7: for every raw tag string and every tag mapping (with
display-name values already stripped, as `fetch_tag_mapping`
guarantees), the local tag list is exactly the spec's split / trim /
drop-empty / case-insensitive-dedup composition, the final tag list is
exactly the spec's lookup / drop-empty / re-dedup composition applied
to it, and both lists are case-insensitively duplicate-free. -/
theorem tag_normalization_spec (raw : String) (m : List (String × String))
    (hm : ∀ p ∈ m, cleanStr p.2 = p.2) :
    split_tags raw = specLocalTags raw ∧
    apply_tag_mapping (split_tags raw) m = specFinalTags raw m ∧
    (split_tags raw).Pairwise (fun a b => lowerStr a ≠ lowerStr b) ∧
    (apply_tag_mapping (split_tags raw) m).Pairwise (fun a b => lowerStr a ≠ lowerStr b) := by
  refine ⟨split_tags_eq_specLocal raw, apply_tag_mapping_eq_spec raw m hm, ?_, ?_⟩
  · rw [split_tags_eq_specLocal]
    unfold specLocalTags
    exact dedupCIAux_pairwise _ _
  · unfold apply_tag_mapping
    rw [dedupNonempty_eq_filter_dedup]
    exact dedupCIAux_pairwise _ _

/-- C7 witness: the spec's own example, tags `"Board, board, Donor"`
with mapping `{"donor": "Major Donor"}`. -/
theorem tag_normalization_spec_witness :
    split_tags "Board, board, Donor" = specLocalTags "Board, board, Donor" ∧
    apply_tag_mapping (split_tags "Board, board, Donor") [("donor", "Major Donor")] =
      specFinalTags "Board, board, Donor" [("donor", "Major Donor")] ∧
    (split_tags "Board, board, Donor").Pairwise (fun a b => lowerStr a ≠ lowerStr b) ∧
    (apply_tag_mapping (split_tags "Board, board, Donor")
        [("donor", "Major Donor")]).Pairwise (fun a b => lowerStr a ≠ lowerStr b) :=
  tag_normalization_spec "Board, board, Donor" [("donor", "Major Donor")] (by decide)

/-! ## The constituent table and the Identity Canonicalizer -/

/-- One row of the raw constituent table (columns of
`constituents.csv`; a missing cell is the empty string). -/
structure ConstituentRow where
  patronId : String
  company : String
  firstName : String
  lastName : String
  salutation : String
  title : String
  dateEntered : String
  primaryEmail : String
  tags : String
deriving DecidableEq

/-- Keep the first occurrence of each value, preserving order. -/
def dedupFirstAux {α : Type} [DecidableEq α] (seen : List α) : List α → List α
  | [] => []
  | x :: xs =>
    if x ∈ seen then dedupFirstAux seen xs
    else x :: dedupFirstAux (x :: seen) xs

/-- The distinct values of a list in first-appearance order. -/
def dedupFirst {α : Type} [DecidableEq α] (l : List α) : List α :=
  dedupFirstAux [] l

/-- Strict "sorts earlier" order of `dedupe_constituents_latest`'s
`sort_values(["Patron ID", "_date_entered_dt", "_row"],
ascending=[True, False, False])`, restricted to one `Patron ID` group:
`a` sorts before `b` iff `a`'s parsed date is later (rows whose date
does not parse — `NaT` — sort after all dated rows), and, at equal or
equally-missing dates, iff `a`'s original row index is larger. -/
def dedupeBeats (pdate : String → Option ℤ) (a b : ℕ × ConstituentRow) : Bool :=
  match pdate a.2.dateEntered, pdate b.2.dateEntered with
  | some x, some y => if x = y then b.1 < a.1 else y < x
  | some _, none => true
  | none, some _ => false
  | none, none => b.1 < a.1

/-- Left fold keeping the best element so far: `better w e` keeps `w`
against challenger `e`. This is the element `drop_duplicates(...,
keep="first")` retains from a sorted group. -/
def pickBest (better : α → α → Bool) : List α → Option α
  | [] => none
  | x :: xs => some (xs.foldl (fun w e => if better w e then w else e) x)

/-- `transform.dedupe_constituents_latest`: one row per distinct
`Patron ID`, namely the row that sorts first under `dedupeBeats`.
pandas sorts the frame by `(Patron ID asc, parsed date desc with NaT
last, row index desc)` and keeps the first row per id; because row
indices are distinct there are no ties, so the kept row is exactly the
`dedupeBeats`-maximal row of its group, independent of sort stability.
Output order (pandas: by `Patron ID` ascending) is modelled as
first-appearance order, on which no verified property depends. -/
def dedupe_constituents_latest (pdate : String → Option ℤ)
    (rows : List ConstituentRow) : List ConstituentRow :=
  (dedupFirst (rows.map (·.patronId))).filterMap fun pid =>
    (pickBest (fun w e => ! dedupeBeats pdate e w)
      ((rows.enum).filter (fun e => e.2.patronId = pid))).map (·.2)

theorem pickBest_spec {α : Type} (better : α → α → Bool)
    (htotal : ∀ a b, better a b = true ∨ better b a = true)
    (htrans : ∀ a b c, better a b = true → better b c = true → better a c = true)
    (l : List α) (w : α) (hw : pickBest better l = some w) :
    w ∈ l ∧ ∀ e ∈ l, better w e = true := by
  cases l with
  | nil => cases hw
  | cons x xs =>
    have haux : ∀ (xs : List α) (x : α),
        (xs.foldl (fun w e => if better w e then w else e) x) ∈ x :: xs ∧
          ∀ e ∈ x :: xs,
            better (xs.foldl (fun w e => if better w e then w else e) x) e = true := by
      intro xs
      induction xs with
      | nil =>
        intro x
        refine ⟨by simp, ?_⟩
        intro e he
        rw [List.mem_singleton] at he
        subst he
        rcases htotal e e with h | h <;> exact h
      | cons y ys ih =>
        intro x
        by_cases hxy : better x y = true
        · have hstep : (y :: ys).foldl (fun w e => if better w e then w else e) x =
              ys.foldl (fun w e => if better w e then w else e) x := by
            simp only [List.foldl_cons, if_pos hxy]
          obtain ⟨hmem, hbest⟩ := ih x
          rw [hstep]
          refine ⟨?_, ?_⟩
          · rcases List.mem_cons.mp hmem with h | h
            · simp [h]
            · simp [List.mem_cons_of_mem, h]
          · intro e he
            rcases List.mem_cons.mp he with rfl | he2
            · exact hbest e (List.mem_cons_self _ _)
            rcases List.mem_cons.mp he2 with rfl | he3
            · exact htrans _ x e (hbest x (List.mem_cons_self _ _)) hxy
            · exact hbest e (List.mem_cons_of_mem _ he3)
        · have hstep : (y :: ys).foldl (fun w e => if better w e then w else e) x =
              ys.foldl (fun w e => if better w e then w else e) y := by
            simp only [List.foldl_cons, if_neg hxy]
          obtain ⟨hmem, hbest⟩ := ih y
          rw [hstep]
          refine ⟨?_, ?_⟩
          · rcases List.mem_cons.mp hmem with h | h
            · simp [h]
            · simp [List.mem_cons_of_mem, h]
          · intro e he
            rcases List.mem_cons.mp he with rfl | he2
            · have hyx : better y e = true := (htotal e y).resolve_left (by simpa using hxy)
              exact htrans _ y e (hbest y (List.mem_cons_self _ _)) hyx
            · exact hbest e he2
    obtain ⟨hmem, hbest⟩ := haux xs x
    have hw2 : w = xs.foldl (fun w e => if better w e then w else e) x := by
      injection hw with h
      exact h.symm
    subst hw2
    exact ⟨hmem, hbest⟩

theorem dedupeBeats_not_both (pdate : String → Option ℤ) (a b : ℕ × ConstituentRow) :
    dedupeBeats pdate a b = true → dedupeBeats pdate b a = false := by
  unfold dedupeBeats
  cases pdate a.2.dateEntered <;> cases pdate b.2.dateEntered <;>
    simp <;> (try split_ifs) <;> omega

theorem dedupeBetter_total (pdate : String → Option ℤ) (a b : ℕ × ConstituentRow) :
    (!dedupeBeats pdate b a) = true ∨ (!dedupeBeats pdate a b) = true := by
  by_cases h : dedupeBeats pdate b a = true
  · right
    simp [dedupeBeats_not_both pdate b a h]
  · left
    simp [h]

theorem dedupeBetter_trans (pdate : String → Option ℤ) (a b c : ℕ × ConstituentRow) :
    (!dedupeBeats pdate b a) = true → (!dedupeBeats pdate c b) = true →
    (!dedupeBeats pdate c a) = true := by
  unfold dedupeBeats
  cases pdate a.2.dateEntered <;> cases pdate b.2.dateEntered <;>
      cases pdate c.2.dateEntered <;>
    simp <;> (try split_ifs) <;> omega

theorem dedupeBeats_total_of_ne (pdate : String → Option ℤ) (a b : ℕ × ConstituentRow)
    (hne : a.1 ≠ b.1) :
    dedupeBeats pdate a b = true ∨ dedupeBeats pdate b a = true := by
  unfold dedupeBeats
  cases pdate a.2.dateEntered <;> cases pdate b.2.dateEntered <;>
    simp <;> (try split_ifs) <;> omega

theorem dedupFirstAux_subset {α : Type} [DecidableEq α] {seen : List α} {l : List α}
    {x : α} (hx : x ∈ dedupFirstAux seen l) : x ∈ l := by
  induction l generalizing seen with
  | nil => simp [dedupFirstAux] at hx
  | cons y ys ih =>
    simp only [dedupFirstAux] at hx
    by_cases hy : y ∈ seen
    · rw [if_pos hy] at hx
      exact List.mem_cons_of_mem _ (ih hx)
    · rw [if_neg hy] at hx
      rcases List.mem_cons.mp hx with rfl | hx2
      · exact List.mem_cons_self _ _
      · exact List.mem_cons_of_mem _ (ih hx2)

theorem mem_dedupFirstAux {α : Type} [DecidableEq α] {l : List α} {x : α} (hx : x ∈ l) :
    ∀ {seen : List α}, x ∉ seen → x ∈ dedupFirstAux seen l := by
  induction l with
  | nil => cases hx
  | cons y ys ih =>
    intro seen hs
    simp only [dedupFirstAux]
    rcases List.mem_cons.mp hx with rfl | hx2
    · rw [if_neg hs]
      exact List.mem_cons_self _ _
    · by_cases hy : y ∈ seen
      · rw [if_pos hy]
        exact ih hx2 hs
      · rw [if_neg hy]
        by_cases hxy : x = y
        · subst hxy
          exact List.mem_cons_self _ _
        · exact List.mem_cons_of_mem _ (ih hx2 (by simp [hs, hxy]))

theorem mem_dedupFirst_iff {α : Type} [DecidableEq α] {l : List α} {x : α} :
    x ∈ dedupFirst l ↔ x ∈ l :=
  ⟨dedupFirstAux_subset, fun h => mem_dedupFirstAux h (by simp)⟩

theorem map_filterMap_patronId (g : String → Option ConstituentRow) (l : List String)
    (h : ∀ pid ∈ l, ∃ r, g pid = some r ∧ r.patronId = pid) :
    (l.filterMap g).map (·.patronId) = l := by
  induction l with
  | nil => rfl
  | cons pid rest ih =>
    obtain ⟨r, hr, hpid⟩ := h pid (List.mem_cons_self _ _)
    rw [List.filterMap_cons, hr, List.map_cons, hpid,
      ih (fun q hq => h q (List.mem_cons_of_mem _ hq))]

/-- C1 (amended): for every date parser and input constituent table,
the Identity Canonicalizer keeps exactly one row per identity key (in
the first conjunct, the kept keys are exactly the distinct input keys),
and the kept row beats every other row of its key under the code's
order: later parsed creation date first, rows with unparseable/empty
dates ranked last, and among rows with equal (or equally missing) dates
the **latest-occurring** input row is kept — not the earliest, as the
claim states. -/
theorem dedupe_one_row_per_key_latest (pdate : String → Option ℤ)
    (rows : List ConstituentRow) :
    (dedupe_constituents_latest pdate rows).map (·.patronId)
        = dedupFirst (rows.map (·.patronId))
    ∧ ∀ w ∈ dedupe_constituents_latest pdate rows, ∃ i,
        (i, w) ∈ rows.enum ∧
        ∀ e ∈ rows.enum, e.2.patronId = w.patronId → e ≠ (i, w) →
          dedupeBeats pdate (i, w) e = true := by
  constructor
  · apply map_filterMap_patronId
    intro pid hpid
    have hkey : pid ∈ rows.map (·.patronId) := mem_dedupFirst_iff.mp hpid
    obtain ⟨row, hrow, hrowpid⟩ := List.mem_map.mp hkey
    obtain ⟨n, hn⟩ := List.mem_iff_get?.mp hrow
    have henum : (n, row) ∈ rows.enum := List.mem_enum_iff_get?.mpr hn
    have hent : (n, row) ∈ (rows.enum).filter (fun e => e.2.patronId = pid) :=
      List.mem_filter.mpr ⟨henum, by simp [hrowpid]⟩
    cases hes : (rows.enum).filter (fun e => e.2.patronId = pid) with
    | nil => rw [hes] at hent; cases hent
    | cons x xs =>
      have hpb : pickBest (fun w e => ! dedupeBeats pdate e w) (x :: xs)
          = some (xs.foldl (fun w e =>
              if (! dedupeBeats pdate e w) then w else e) x) := rfl
      obtain ⟨hmem, -⟩ := pickBest_spec _ (dedupeBetter_total pdate)
        (dedupeBetter_trans pdate) (x :: xs) _ hpb
      refine ⟨(xs.foldl (fun w e => if (! dedupeBeats pdate e w) then w else e) x).2,
        ?_, ?_⟩
      · rw [hpb]
        rfl
      · have : (xs.foldl (fun w e => if (! dedupeBeats pdate e w) then w else e) x)
            ∈ (rows.enum).filter (fun e => e.2.patronId = pid) := by
          rw [hes]; exact hmem
        have := (List.mem_filter.mp this).2
        simpa using this
  · intro w hw
    obtain ⟨pid, hpid, hg⟩ := List.mem_filterMap.mp hw
    obtain ⟨iw, hpb, hiw⟩ := Option.map_eq_some'.mp hg
    obtain ⟨hmem, hbest⟩ := pickBest_spec _ (dedupeBetter_total pdate)
      (dedupeBetter_trans pdate) _ _ hpb
    obtain ⟨henum, hpred⟩ := List.mem_filter.mp hmem
    have hwpid : w.patronId = pid := by
      rw [← hiw]
      simpa using hpred
    refine ⟨iw.1, ?_, ?_⟩
    · rw [← hiw]
      exact henum
    · intro e he hepid hne
      have hent : e ∈ (rows.enum).filter (fun x => x.2.patronId = pid) :=
        List.mem_filter.mpr ⟨he, by simp [hepid, hwpid]⟩
      have hb := hbest e hent
      have hne1 : e.1 ≠ iw.1 := by
        intro heq
        apply hne
        have h1 := List.mem_enum_iff_get?.mp he
        have h2 := List.mem_enum_iff_get?.mp henum
        rw [heq] at h1
        rw [h1] at h2
        have : e.2 = iw.2 := Option.some.inj h2
        calc e = (e.1, e.2) := rfl
          _ = (iw.1, w) := by rw [heq, this, hiw]
      have hiww : (iw.1, w) = iw := by
        rw [← hiw]
      rw [hiww]
      rcases dedupeBeats_total_of_ne pdate iw e (fun h => hne1 h.symm) with h | h
      · exact h
      · rw [h] at hb
        cases hb

/-- Rows used by the C1 counterexample: the same identity key with no
parseable date, differing in the last name. -/
def cexRowA : ConstituentRow :=
  ⟨"1", "", "Jane", "Doe", "", "", "", "", ""⟩

def cexRowB : ConstituentRow :=
  ⟨"1", "", "Jane", "Smith", "", "", "", "", ""⟩

/-- C1, counterexample to the claim as stated: two rows with the same
key and equally-missing dates; the code keeps the second (later) input
row, while the claim says the earliest-occurring row is kept. -/
theorem dedupe_tie_keeps_latest_cex :
    dedupe_constituents_latest (fun _ => none) [cexRowA, cexRowB] = [cexRowB]
      ∧ cexRowA ≠ cexRowB := by
  constructor
  · decide
  · decide

/-- C1 witness: the amended theorem applied at the counterexample's
input. -/
theorem dedupe_one_row_per_key_latest_witness :
    ((dedupe_constituents_latest (fun _ => none) [cexRowA, cexRowB]).map (·.patronId)
        = dedupFirst (([cexRowA, cexRowB]).map (·.patronId)))
    ∧ ∀ w ∈ dedupe_constituents_latest (fun _ => none) [cexRowA, cexRowB], ∃ i,
        (i, w) ∈ ([cexRowA, cexRowB]).enum ∧
        ∀ e ∈ ([cexRowA, cexRowB]).enum, e.2.patronId = w.patronId → e ≠ (i, w) →
          dedupeBeats (fun _ => none) (i, w) e = true :=
  dedupe_one_row_per_key_latest (fun _ => none) [cexRowA, cexRowB]

/-! ## The email table and the Contact Resolver -/

/-- One row of `emails.csv`. -/
structure EmailRow where
  patronId : String
  email : String
deriving DecidableEq

/-- One output row of `build_email_columns`. -/
structure EmailOut where
  patronId : String
  email1 : String
  email2 : String
deriving DecidableEq

/-- The validated standardized primary email of a constituent row, if
any (`build_email_columns`, first loop: `pe` non-empty and valid). -/
def validStdPrimary (r : ConstituentRow) : Option String :=
  let pe := standardize_email (cleanStr r.primaryEmail)
  if pe ≠ "" ∧ is_valid_email pe then some pe else none

/-- The validated standardized email of an email-table row, if any
(`build_email_columns`, second loop). -/
def validStdEmail (e : EmailRow) : Option String :=
  let s := standardize_email e.email
  if s ≠ "" ∧ is_valid_email s then some s else none

/-- The candidate list of one identity: validated primaries of its
constituent rows in row order, then its validated email-table entries
in file order — the per-key contents of the `candidates` dict. -/
def emailCandidates (cons : List ConstituentRow) (emails : List EmailRow)
    (pid : String) : List String :=
  (cons.filter (fun r => r.patronId = pid)).filterMap validStdPrimary
    ++ (emails.filter (fun e => e.patronId = pid)).filterMap validStdEmail

/-- The `(email1, email2)` selection from the de-duplicated candidate
list, exactly as coded: `email1 = uniq[0]` if any, `email2 = uniq[1]`
provided `email1` is non-empty and `uniq[1] != email1`. -/
def emailPair : List String → String × String
  | [] => ("", "")
  | [x] => (x, "")
  | x :: y :: _ => (x, if x = "" then "" else if y = x then "" else y)

/-- `transform.build_email_columns`: one output row per key of the
insertion-ordered `candidates` dict — every constituent `Patron ID`
first (in row order), then every email-table `Patron ID` not already
present (in file order). -/
def build_email_columns (cons : List ConstituentRow) (emails : List EmailRow) :
    List EmailOut :=
  (dedupFirst (cons.map (·.patronId) ++ emails.map (·.patronId))).map fun pid =>
    { patronId := pid
      email1 := (emailPair (dedupFirst (emailCandidates cons emails pid))).1
      email2 := (emailPair (dedupFirst (emailCandidates cons emails pid))).2 }

/-- The claim's `(Email-1, Email-2)` rule: first candidate (or empty),
second candidate if present and distinct from the first. -/
def specEmail12 : List String → String × String
  | [] => ("", "")
  | [x] => (x, "")
  | x :: y :: _ => (x, if y ≠ x then y else "")

/-- The claim's candidate list for one identity, worded for a
deduplicated constituent table: the validated primary email of *the*
constituent row (if present and valid) first, then the identity's
email-table entries in file order, each independently validated,
de-duplicated preserving first occurrence. -/
def specCandidates (cons : List ConstituentRow) (emails : List EmailRow)
    (pid : String) : List String :=
  dedupFirst ((cons.find? (fun r => r.patronId = pid)).toList.filterMap validStdPrimary
    ++ (emails.filter (fun e => e.patronId = pid)).filterMap validStdEmail)

theorem filter_eq_find_of_nodup (cons : List ConstituentRow) (pid : String)
    (hnodup : (cons.map (·.patronId)).Nodup) :
    cons.filter (fun r => r.patronId = pid)
      = (cons.find? (fun r => r.patronId = pid)).toList := by
  induction cons with
  | nil => rfl
  | cons r rest ih =>
    rw [List.map_cons, List.nodup_cons] at hnodup
    obtain ⟨hr, hrest⟩ := hnodup
    by_cases hp : r.patronId = pid
    · rw [List.filter_cons, List.find?_cons]
      simp only [hp, decide_True, if_true]
      have hnone : rest.filter (fun r => r.patronId = pid) = [] := by
        rw [List.filter_eq_nil]
        intro q hq
        simp only [decide_eq_true_eq]
        intro hqp
        exact hr (by rw [hp, ← hqp]; exact List.mem_map_of_mem _ hq)
      rw [hnone]
      rfl
    · rw [List.filter_cons, List.find?_cons]
      simp only [hp, decide_False]
      exact ih hrest

theorem dedupFirstAux_not_seen {α : Type} [DecidableEq α] {l : List α} :
    ∀ {seen : List α} {x : α},
    x ∈ dedupFirstAux seen l → x ∉ seen := by
  induction l with
  | nil => intro seen x hx; simp [dedupFirstAux] at hx
  | cons y ys ih =>
    intro seen x hx
    simp only [dedupFirstAux] at hx
    by_cases hy : y ∈ seen
    · rw [if_pos hy] at hx
      exact ih hx
    · rw [if_neg hy] at hx
      rcases List.mem_cons.mp hx with rfl | hx2
      · exact hy
      · intro hseen
        exact ih hx2 (List.mem_cons_of_mem _ hseen)

theorem dedupFirstAux_nodup {α : Type} [DecidableEq α] (l : List α) :
    ∀ (seen : List α), (dedupFirstAux seen l).Nodup := by
  induction l with
  | nil => intro seen; simp [dedupFirstAux]
  | cons y ys ih =>
    intro seen
    simp only [dedupFirstAux]
    by_cases hy : y ∈ seen
    · simpa [hy] using ih seen
    · rw [if_neg hy, List.nodup_cons]
      refine ⟨?_, ih _⟩
      intro hmem
      exact dedupFirstAux_not_seen hmem (List.mem_cons_self _ _)

theorem dedupFirst_nodup {α : Type} [DecidableEq α] (l : List α) : (dedupFirst l).Nodup :=
  dedupFirstAux_nodup l []

theorem validStdPrimary_ne_empty {r : ConstituentRow} {x : String}
    (h : validStdPrimary r = some x) : x ≠ "" := by
  unfold validStdPrimary at h
  by_cases hc : standardize_email (cleanStr r.primaryEmail) ≠ ""
      ∧ is_valid_email (standardize_email (cleanStr r.primaryEmail))
  · rw [if_pos hc] at h
    rw [← Option.some.inj h]
    exact hc.1
  · rw [if_neg hc] at h
    cases h

theorem validStdEmail_ne_empty {e : EmailRow} {x : String}
    (h : validStdEmail e = some x) : x ≠ "" := by
  unfold validStdEmail at h
  by_cases hc : standardize_email e.email ≠ "" ∧ is_valid_email (standardize_email e.email)
  · rw [if_pos hc] at h
    rw [← Option.some.inj h]
    exact hc.1
  · rw [if_neg hc] at h
    cases h

theorem emailCandidates_ne_empty {cons : List ConstituentRow} {emails : List EmailRow}
    {pid x : String} (hx : x ∈ emailCandidates cons emails pid) : x ≠ "" := by
  unfold emailCandidates at hx
  rcases List.mem_append.mp hx with h | h
  · obtain ⟨r, -, hr⟩ := List.mem_filterMap.mp h
    exact validStdPrimary_ne_empty hr
  · obtain ⟨e, -, he⟩ := List.mem_filterMap.mp h
    exact validStdEmail_ne_empty he

theorem emailPair_eq_spec (l : List String) (hnodup : l.Nodup)
    (hne : ∀ x ∈ l, x ≠ "") : emailPair l = specEmail12 l := by
  match l with
  | [] => rfl
  | [x] => rfl
  | x :: y :: rest =>
    have hx : x ≠ "" := hne x (List.mem_cons_self _ _)
    have hyx : y ≠ x := by
      rw [List.nodup_cons] at hnodup
      intro he
      exact hnodup.1 (by rw [← he]; exact List.mem_cons_self _ _)
    show (x, if x = "" then "" else if y = x then "" else y) = (x, if y ≠ x then y else "")
    rw [if_neg hx, if_neg hyx, if_pos hyx]

/-- C3: for every deduplicated constituent table and email table, the
Contact Resolver outputs one row per identity seen in either source
(constituents first, then email-only identities — so identities absent
from the constituent table still receive candidates), and each row's
`(Email-1, Email-2)` pair is: first candidate (or empty) and second
candidate if present and distinct, over the candidate list made of the
identity's validated primary email first, then its validated
email-table entries in file order, de-duplicated keeping first
occurrence. -/
theorem email_resolver_spec (cons : List ConstituentRow) (emails : List EmailRow)
    (hnodup : (cons.map (·.patronId)).Nodup) :
    ((build_email_columns cons emails).map (·.patronId)
        = dedupFirst (cons.map (·.patronId) ++ emails.map (·.patronId)))
    ∧ (∀ pid ∈ emails.map (·.patronId),
        ∃ o ∈ build_email_columns cons emails, o.patronId = pid)
    ∧ ∀ o ∈ build_email_columns cons emails,
        (o.email1, o.email2) = specEmail12 (specCandidates cons emails o.patronId) := by
  refine ⟨?_, ?_, ?_⟩
  · unfold build_email_columns
    rw [List.map_map]
    exact List.map_id _
  · intro pid hp
    refine ⟨_, List.mem_map_of_mem _
      (mem_dedupFirst_iff.mpr (List.mem_append.mpr (Or.inr hp))), rfl⟩
  · intro o ho
    obtain ⟨pid, hpid, rfl⟩ := List.mem_map.mp ho
    have hcand : specCandidates cons emails pid
        = dedupFirst (emailCandidates cons emails pid) := by
      unfold specCandidates emailCandidates
      rw [filter_eq_find_of_nodup cons pid hnodup]
    show emailPair (dedupFirst (emailCandidates cons emails pid)) = _
    rw [hcand, emailPair_eq_spec _ (dedupFirst_nodup _)
      (fun x hx => emailCandidates_ne_empty (dedupFirstAux_subset hx))]

/-- Constituent row used in witnesses: the spec's duplicate-email
example. -/
def janeRow : ConstituentRow :=
  ⟨"1", "", "Jane", "Doe", "", "", "2024-01-01", "JANE@Example.com", ""⟩

example : build_email_columns [janeRow] [⟨"1", "jane@example.com"⟩]
    = [⟨"1", "jane@example.com", ""⟩] := by decide

/-- C3 witness: the spec's duplicate-collapse example, primary
`"JANE@Example.com"` plus email-table row `(1, "jane@example.com")`. -/
theorem email_resolver_spec_witness :
    (((build_email_columns [janeRow] [⟨"1", "jane@example.com"⟩]).map (·.patronId)
        = dedupFirst (([janeRow]).map (·.patronId)
            ++ ([(⟨"1", "jane@example.com"⟩ : EmailRow)]).map (·.patronId)))
    ∧ (∀ pid ∈ ([(⟨"1", "jane@example.com"⟩ : EmailRow)]).map (·.patronId),
        ∃ o ∈ build_email_columns [janeRow] [⟨"1", "jane@example.com"⟩], o.patronId = pid)
    ∧ ∀ o ∈ build_email_columns [janeRow] [⟨"1", "jane@example.com"⟩],
        (o.email1, o.email2)
          = specEmail12 (specCandidates [janeRow] [⟨"1", "jane@example.com"⟩] o.patronId)) :=
  email_resolver_spec [janeRow] [⟨"1", "jane@example.com"⟩] (by decide)

/-! ## The donation table and the Donation Aggregator -/

/-- One row of `donations.csv`. -/
structure DonationRow where
  patronId : String
  amount : String
  date : String
  status : String
deriving DecidableEq

/-- The donation table; `hasStatus` models whether the optional
`Status` column is present. -/
structure DonationTable where
  hasStatus : Bool
  rows : List DonationRow
deriving DecidableEq

/-- A calendar date as produced by the date parser. -/
structure Date where
  year : ℕ
  month : ℕ
  day : ℕ
deriving DecidableEq

/-- Chronological sort key of a date. -/
def Date.key (d : Date) : ℕ :=
  d.year * 10000 + d.month * 100 + d.day

/-- `Timestamp.date().isoformat()`: zero-padded `YYYY-MM-DD`. -/
def isoRender (d : Date) : String :=
  ⟨pad4 d.year ++ '-' :: (pad2 d.month ++ '-' :: pad2 d.day)⟩

/-- A concrete instance of the lenient date parser, used for concrete
evaluations: `pd.to_datetime` restricted to ISO `YYYY-MM-DD` inputs
(anything else is `NaT`). Pipeline theorems quantify over the
parser. -/
def parseIsoDate (s : String) : Option Date :=
  match s.data with
  | [y1, y2, y3, y4, h1, m1, m2, h2, d1, d2] =>
    if h1 = '-' ∧ h2 = '-' ∧ allDigits [y1, y2, y3, y4]
        ∧ allDigits [m1, m2] ∧ allDigits [d1, d2] then
      some ⟨digitsVal [y1, y2, y3, y4], digitsVal [m1, m2], digitsVal [d1, d2]⟩
    else none
  | _ => none

example : parseIsoDate "2024-03-01" = some ⟨2024, 3, 1⟩ := by decide
example : parseIsoDate "bad" = none := by decide
example : isoRender ⟨2024, 3, 1⟩ = "2024-03-01" := by decide

/-- The qualifying donation rows with their parsed amount and date:
status-filtered when the `Status` column exists (case-insensitive
`"paid"`), then rows whose amount or date does not parse dropped —
`build_donation_metrics` up to its `dropna`. -/
def qualRows (pdate : String → Option Date) (t : DonationTable) :
    List (DonationRow × ℚ × Date) :=
  (if t.hasStatus
      then t.rows.filter (fun r => lowerStr r.status = "paid")
      else t.rows).filterMap fun r =>
    match parse_currency_to_float r.amount, pdate r.date with
    | some a, some d => some (r, a, d)
    | _, _ => none

/-- Strict "sorts earlier" order of the most-recent selection
(`sort_values(["Patron ID", "date_dt", "amount_num"], ascending=[True,
False, False])` within one id group): later date first, ties by larger
amount. -/
def donBeats (a b : DonationRow × ℚ × Date) : Bool :=
  b.2.2.key < a.2.2.key ∨ (a.2.2.key = b.2.2.key ∧ b.2.1 < a.2.1)

/-- One output row of `build_donation_metrics`. -/
structure MetricsRow where
  patronId : String
  lifetime : String
  recentDate : String
  recentAmount : String
deriving DecidableEq

/-- `transform.build_donation_metrics`: per identity with at least one
qualifying row, the currency-formatted sum of qualifying amounts and
the `donBeats`-maximal qualifying row's ISO date and formatted amount
(`groupby(...).first()` on the sorted frame; full ties — equal date and
amount — keep the earliest row, as the stable lexsort does). Row order
(pandas: by `Patron ID` ascending) is modelled as first-appearance
order, on which no verified property depends. -/
def build_donation_metrics (pdate : String → Option Date) (t : DonationTable) :
    List MetricsRow :=
  (dedupFirst ((qualRows pdate t).map (fun q => q.1.patronId))).filterMap fun pid =>
    (pickBest (fun w e => ! donBeats e w)
        ((qualRows pdate t).filter (fun q => q.1.patronId = pid))).map fun best =>
      { patronId := pid
        lifetime := format_currency
          ((((qualRows pdate t).filter (fun q => q.1.patronId = pid)).map
            (fun q => q.2.1)).sum)
        recentDate := isoRender best.2.2
        recentAmount := format_currency best.2.1 }

theorem donBeats_not_both (a b : DonationRow × ℚ × Date) :
    donBeats a b = true → donBeats b a = false := by
  intro h
  simp only [donBeats, decide_eq_true_eq] at h
  simp only [donBeats, decide_eq_false_iff_not, not_or, not_and, not_lt]
  rcases h with h | ⟨h1, h2⟩
  · exact ⟨by omega, fun he => by omega⟩
  · exact ⟨by omega, fun he => le_of_lt h2⟩

theorem donBetter_total (a b : DonationRow × ℚ × Date) :
    (!donBeats b a) = true ∨ (!donBeats a b) = true := by
  by_cases h : donBeats b a = true
  · right
    simp [donBeats_not_both b a h]
  · left
    simp [h]

theorem donBetter_trans (a b c : DonationRow × ℚ × Date) :
    (!donBeats b a) = true → (!donBeats c b) = true → (!donBeats c a) = true := by
  simp only [Bool.not_eq_true', donBeats, decide_eq_false_iff_not, not_or, not_and, not_lt]
  intro h1 h2
  obtain ⟨h1k, h1a⟩ := h1
  obtain ⟨h2k, h2a⟩ := h2
  constructor
  · omega
  · intro he
    have hcb : c.2.2.key = b.2.2.key := by omega
    have hba : b.2.2.key = a.2.2.key := by omega
    calc c.2.1 ≤ b.2.1 := h2a hcb
      _ ≤ a.2.1 := h1a hba

theorem map_filterMap_key {β : Type} (key : β → String) (g : String → Option β)
    (l : List String) (h : ∀ pid ∈ l, ∃ r, g pid = some r ∧ key r = pid) :
    ((l.filterMap g).map key) = l := by
  induction l with
  | nil => rfl
  | cons pid rest ih =>
    obtain ⟨r, hr, hpid⟩ := h pid (List.mem_cons_self _ _)
    rw [List.filterMap_cons, hr, List.map_cons, hpid,
      ih (fun q hq => h q (List.mem_cons_of_mem _ hq))]

/-- C5: for every date parser and donation table, (a) the aggregator
outputs exactly one row per identity with a qualifying transaction;
(b) a row qualifies (feeds aggregation) if and only if its amount and
date both parse and, when the `Status` column is present, its status
case-insensitively equals `"paid"` (no filtering when absent); (c) each
output's most-recent pair comes from a qualifying row of that identity
whose (date, amount) is maximal — latest date first, ties broken by
largest amount — rendered as an ISO calendar date and a
currency-formatted amount. -/
theorem donation_metrics_spec (pdate : String → Option Date) (t : DonationTable) :
    ((build_donation_metrics pdate t).map (·.patronId)
        = dedupFirst ((qualRows pdate t).map (fun q => q.1.patronId)))
    ∧ (∀ r ∈ t.rows, (∃ q ∈ qualRows pdate t, q.1 = r) ↔
        ((t.hasStatus → lowerStr r.status = "paid")
          ∧ (parse_currency_to_float r.amount).isSome ∧ (pdate r.date).isSome))
    ∧ ∀ m ∈ build_donation_metrics pdate t, ∃ q ∈ qualRows pdate t,
        q.1.patronId = m.patronId
        ∧ (∀ q2 ∈ qualRows pdate t, q2.1.patronId = m.patronId →
            (q2.2.2.key < q.2.2.key ∨ (q2.2.2.key = q.2.2.key ∧ q2.2.1 ≤ q.2.1)))
        ∧ m.recentDate = isoRender q.2.2 ∧ m.recentAmount = format_currency q.2.1 := by
  refine ⟨?_, ?_, ?_⟩
  · apply map_filterMap_key
    intro pid hpid
    have hkey : pid ∈ (qualRows pdate t).map (fun q => q.1.patronId) :=
      mem_dedupFirst_iff.mp hpid
    obtain ⟨q, hq, hqpid⟩ := List.mem_map.mp hkey
    have hent : q ∈ (qualRows pdate t).filter (fun q => q.1.patronId = pid) :=
      List.mem_filter.mpr ⟨hq, by simp [hqpid]⟩
    cases hes : (qualRows pdate t).filter (fun q => q.1.patronId = pid) with
    | nil => rw [hes] at hent; cases hent
    | cons x xs =>
      refine ⟨{ patronId := pid
                lifetime := format_currency (((x :: xs).map (fun q => q.2.1)).sum)
                recentDate := isoRender
                  ((xs.foldl (fun w e => if (! donBeats e w) then w else e) x)).2.2
                recentAmount := format_currency
                  ((xs.foldl (fun w e => if (! donBeats e w) then w else e) x)).2.1 },
        ?_, rfl⟩
      rfl
  · intro r hr
    constructor
    · rintro ⟨q, hq, rfl⟩
      unfold qualRows at hq
      obtain ⟨r2, hr2, hf⟩ := List.mem_filterMap.mp hq
      have hstat : t.hasStatus → lowerStr q.1.status = "paid" := by
        intro hs
        rw [hs] at hr2
        simp only [if_true] at hr2
        cases hpa : parse_currency_to_float r2.amount with
        | none => rw [hpa] at hf; cases hf
        | some a =>
          cases hpd : pdate r2.date with
          | none => rw [hpa, hpd] at hf; cases hf
          | some d =>
            rw [hpa, hpd] at hf
            have : r2 = q.1 := congrArg (fun x => x.1) (Option.some.inj hf)
            rw [← this]
            simpa using (List.mem_filter.mp hr2).2
      cases hpa : parse_currency_to_float r2.amount with
      | none => rw [hpa] at hf; cases hf
      | some a =>
        cases hpd : pdate r2.date with
        | none => rw [hpa, hpd] at hf; cases hf
        | some d =>
          rw [hpa, hpd] at hf
          have hr2q : r2 = q.1 := congrArg (fun x => x.1) (Option.some.inj hf)
          refine ⟨hstat, ?_, ?_⟩
          · rw [← hr2q, hpa]; rfl
          · rw [← hr2q, hpd]; rfl
    · rintro ⟨hstat, hpa, hpd⟩
      obtain ⟨a, ha⟩ := Option.isSome_iff_exists.mp hpa
      obtain ⟨d, hd⟩ := Option.isSome_iff_exists.mp hpd
      refine ⟨(r, a, d), ?_, rfl⟩
      unfold qualRows
      apply List.mem_filterMap.mpr
      refine ⟨r, ?_, by rw [ha, hd]⟩
      cases hs : t.hasStatus
      · simp only [hs, if_false, Bool.false_eq_true, reduceIte]
        exact hr
      · simp only [hs, if_true]
        exact List.mem_filter.mpr ⟨hr, by simp [hstat (by rw [hs])]⟩
  · intro m hm
    obtain ⟨pid, hpid, hg⟩ := List.mem_filterMap.mp hm
    obtain ⟨best, hpb, hbm⟩ := Option.map_eq_some'.mp hg
    obtain ⟨hmem, hbest⟩ := pickBest_spec _ donBetter_total donBetter_trans _ _ hpb
    obtain ⟨hqual, hpred⟩ := List.mem_filter.mp hmem
    have hbpid : best.1.patronId = pid := by simpa using hpred
    have hmpid : m.patronId = pid := by rw [← hbm]
    refine ⟨best, hqual, by rw [hbpid, hmpid], ?_, ?_, ?_⟩
    · intro q2 hq2 hq2pid
      have hent : q2 ∈ (qualRows pdate t).filter (fun q => q.1.patronId = pid) :=
        List.mem_filter.mpr ⟨hq2, by simp [hq2pid, hmpid]⟩
      have hb := hbest q2 hent
      simp only [Bool.not_eq_true', donBeats, decide_eq_false_iff_not, not_or,
        not_and, not_lt] at hb
      obtain ⟨hk, hamt⟩ := hb
      rcases Nat.lt_or_ge q2.2.2.key best.2.2.key with h | h
      · exact Or.inl h
      · have he : q2.2.2.key = best.2.2.key := by omega
        exact Or.inr ⟨he, hamt he⟩
    · rw [← hbm]
    · rw [← hbm]

/-- The spec's donation example: `(id=2, $50, 2024-03-01, paid)` and
`(id=2, $20, 2024-05-01, refunded)`. -/
def specDonTable : DonationTable :=
  ⟨true, [⟨"2", "$50", "2024-03-01", "paid"⟩, ⟨"2", "$20", "2024-05-01", "refunded"⟩]⟩

/-- C5 witness: the theorem at the ISO parser and the spec's donation
example. -/
theorem donation_metrics_spec_witness :
    ((build_donation_metrics parseIsoDate specDonTable).map (·.patronId)
        = dedupFirst ((qualRows parseIsoDate specDonTable).map (fun q => q.1.patronId)))
    ∧ (∀ r ∈ specDonTable.rows, (∃ q ∈ qualRows parseIsoDate specDonTable, q.1 = r) ↔
        ((specDonTable.hasStatus → lowerStr r.status = "paid")
          ∧ (parse_currency_to_float r.amount).isSome ∧ (parseIsoDate r.date).isSome))
    ∧ ∀ m ∈ build_donation_metrics parseIsoDate specDonTable,
        ∃ q ∈ qualRows parseIsoDate specDonTable,
        q.1.patronId = m.patronId
        ∧ (∀ q2 ∈ qualRows parseIsoDate specDonTable, q2.1.patronId = m.patronId →
            (q2.2.2.key < q.2.2.key ∨ (q2.2.2.key = q.2.2.key ∧ q2.2.1 ≤ q.2.1)))
        ∧ m.recentDate = isoRender q.2.2 ∧ m.recentAmount = format_currency q.2.1 :=
  donation_metrics_spec parseIsoDate specDonTable

/-! ## Lifetime totals (C6) -/

/-- Syntactic test that a currency string denotes a whole number of
cents: after the cleaning and `'$'`/`','` removal of
`parse_currency_to_float`, an optional sign then digits with at most
two fractional digits. -/
def centDigits (cs : List Char) : Bool :=
  if cs.count '.' = 0 then cs ≠ [] ∧ allDigits cs
  else if cs.count '.' = 1 then
    allDigits (cs.takeWhile (fun c => c ≠ '.'))
      ∧ allDigits ((cs.dropWhile (fun c => c ≠ '.')).drop 1)
      ∧ (cs.takeWhile (fun c => c ≠ '.') ≠ [] ∨ (cs.dropWhile (fun c => c ≠ '.')).drop 1 ≠ [])
      ∧ ((cs.dropWhile (fun c => c ≠ '.')).drop 1).length ≤ 2
  else false

def centLiteral (s : String) : Bool :=
  if cleanStr s = "" then false
  else
    match (cleanStr ⟨(cleanStr s).data.filter (fun c => c ≠ '$' ∧ c ≠ ',')⟩).data with
    | [] => false
    | c :: rest =>
      if c = '-' then centDigits rest
      else if c = '+' then centDigits rest
      else centDigits (c :: rest)

example : centLiteral "$1,234.50" = true := by decide
example : centLiteral "$50" = true := by decide
example : centLiteral "-5.5" = true := by decide
example : centLiteral "5.555" = false := by decide
example : centLiteral "abc" = false := by decide

theorem centDigits_parse {cs : List Char} (h : centDigits cs = true) :
    ∃ n : ℕ, parseUnsignedDec cs = some ((n : ℚ) / 100) := by
  unfold centDigits at h
  unfold parseUnsignedDec
  by_cases h0 : cs.count '.' = 0
  · rw [if_pos h0] at h ⊢
    simp only [Bool.and_eq_true, decide_eq_true_eq] at h
    rw [if_pos ⟨by simpa using h.1, h.2⟩]
    refine ⟨100 * digitsVal cs, ?_⟩
    congr 1
    push_cast
    field_simp
  · rw [if_neg h0] at h ⊢
    by_cases h1 : cs.count '.' = 1
    · rw [if_pos h1] at h ⊢
      simp only [Bool.and_eq_true, decide_eq_true_eq] at h
      obtain ⟨hip, hfp, hne, hlen⟩ := h
      rw [if_pos ⟨hip, hfp, by simpa using hne⟩]
      set fp := (cs.dropWhile (fun c => c ≠ '.')).drop 1 with hfpdef
      set ip := cs.takeWhile (fun c => c ≠ '.') with hipdef
      match hm : fp, hlen with
      | [], _ =>
        refine ⟨100 * digitsVal ip, ?_⟩
        congr 1
        simp [digitsVal]
      | [a], _ =>
        refine ⟨100 * digitsVal ip + 10 * digitsVal [a], ?_⟩
        congr 1
        push_cast
        have hl : ([a] : List Char).length = 1 := rfl
        rw [hl]
        field_simp
        ring
      | [a, b], _ =>
        refine ⟨100 * digitsVal ip + digitsVal [a, b], ?_⟩
        congr 1
        push_cast
        have hl : ([a, b] : List Char).length = 2 := rfl
        rw [hl]
        field_simp
        ring
    · rw [if_neg h1] at h
      cases h

theorem centLiteral_parse {s : String} (h : centLiteral s = true) :
    ∃ z : ℤ, parse_currency_to_float s = some ((z : ℚ) / 100) := by
  unfold centLiteral at h
  unfold parse_currency_to_float
  by_cases h0 : cleanStr s = ""
  · rw [if_pos h0] at h
    cases h
  · rw [if_neg h0] at h ⊢
    cases hd : (cleanStr ⟨(cleanStr s).data.filter (fun c => c ≠ '$' ∧ c ≠ ',')⟩).data with
    | nil =>
      rw [hd] at h
      cases h
    | cons c rest =>
      rw [hd] at h
      have hX : cleanStr ⟨(cleanStr s).data.filter (fun c => c ≠ '$' ∧ c ≠ ',')⟩
          = ⟨c :: rest⟩ := by
        rw [show (cleanStr ⟨(cleanStr s).data.filter (fun c => c ≠ '$' ∧ c ≠ ',')⟩ : String)
            = ⟨(cleanStr ⟨(cleanStr s).data.filter (fun c => c ≠ '$' ∧ c ≠ ',')⟩).data⟩
          from rfl, hd]
      rw [hX, parseDecimal_mk]
      have h2 : (if c = '-' then centDigits rest
          else if c = '+' then centDigits rest else centDigits (c :: rest)) = true := h
      by_cases hc : c = '-'
      · rw [if_pos hc] at h2 ⊢
        obtain ⟨n, hn⟩ := centDigits_parse h2
        refine ⟨-(n : ℤ), ?_⟩
        rw [hn]
        simp only [Option.map_some']
        congr 1
        push_cast
        ring
      · rw [if_neg hc] at h2 ⊢
        by_cases hp : c = '+'
        · rw [if_pos hp] at h2 ⊢
          obtain ⟨n, hn⟩ := centDigits_parse h2
          exact ⟨(n : ℤ), by rw [hn]; norm_num⟩
        · rw [if_neg hp] at h2 ⊢
          obtain ⟨n, hn⟩ := centDigits_parse h2
          exact ⟨(n : ℤ), by rw [hn]; norm_num⟩

theorem cent_sum {α : Type} (val : α → ℚ) (L : List α)
    (h : ∀ x ∈ L, ∃ z : ℤ, val x = (z : ℚ) / 100) :
    ∃ z : ℤ, (L.map val).sum = (z : ℚ) / 100 := by
  induction L with
  | nil => exact ⟨0, by simp⟩
  | cons x xs ih =>
    obtain ⟨z1, hz1⟩ := h x (List.mem_cons_self _ _)
    obtain ⟨z2, hz2⟩ := ih (fun y hy => h y (List.mem_cons_of_mem _ hy))
    refine ⟨z1 + z2, ?_⟩
    rw [List.map_cons, List.sum_cons, hz1, hz2]
    push_cast
    ring

theorem sum_filter_add {α : Type} (val : α → ℚ) (p : α → Bool) (l : List α) :
    ((l.filter p).map val).sum + ((l.filter (fun x => ! p x)).map val).sum
      = (l.map val).sum := by
  induction l with
  | nil => simp
  | cons a l ih =>
    by_cases ha : p a = true
    · rw [List.filter_cons, if_pos ha, List.filter_cons,
        if_neg (by simp [ha] : ¬ (! p a) = true)]
      rw [List.map_cons, List.sum_cons, List.map_cons, List.sum_cons, ← ih]
      ring
    · rw [List.filter_cons, if_neg ha, List.filter_cons,
        if_pos (by simp [Bool.not_eq_true] at ha ⊢; exact ha)]
      rw [List.map_cons, List.sum_cons, List.map_cons, List.sum_cons, ← ih]
      ring

theorem sum_partition {α : Type} (key : α → String) (val : α → ℚ) :
    ∀ (ks : List String) (l : List α), ks.Nodup → (∀ x ∈ l, key x ∈ ks) →
      (ks.map (fun k => ((l.filter (fun x => key x = k)).map val).sum)).sum
        = (l.map val).sum := by
  intro ks
  induction ks with
  | nil =>
    intro l _ hcov
    cases l with
    | nil => rfl
    | cons a l => exact absurd (hcov a (List.mem_cons_self _ _)) (by simp)
  | cons k ks ih =>
    intro l hnd hcov
    rw [List.nodup_cons] at hnd
    obtain ⟨hk, hnd⟩ := hnd
    rw [List.map_cons, List.sum_cons]
    have htail : ∀ k2 ∈ ks, ((l.filter (fun x => key x = k2)).map val).sum
        = (((l.filter (fun x => ! (decide (key x = k)))).filter
            (fun x => key x = k2)).map val).sum := by
      intro k2 hk2
      have hstep : ((l.filter (fun x => ! (decide (key x = k)))).filter
            (fun x => key x = k2))
          = l.filter (fun x => decide (key x = k2) && ! (decide (key x = k))) := by
        rw [List.filter_filter]
      have hcong : l.filter (fun x => key x = k2)
          = l.filter (fun x => decide (key x = k2) && ! (decide (key x = k))) := by
        apply List.filter_congr
        intro x hx
        by_cases hx2 : key x = k2
        · have hk2k : ¬ k2 = k := fun he => hk (he ▸ hk2)
          simp [hx2, hk2k]
        · simp [hx2]
      rw [hcong, ← hstep]
    rw [List.map_congr_left htail,
      ih (l.filter (fun x => ! (decide (key x = k)))) hnd ?_]
    · rw [← sum_filter_add val (fun x => decide (key x = k)) l]
    · intro x hx
      obtain ⟨hxl, hxk⟩ := List.mem_filter.mp hx
      have := hcov x hxl
      rw [List.mem_cons] at this
      rcases this with he | he
      · simp [he] at hxk
      · exact he

theorem sum_over_filterMap {β : Type} (g : String → Option β) (f : β → ℚ)
    (h : String → ℚ) (l : List String)
    (hall : ∀ k ∈ l, ∃ m, g k = some m ∧ f m = h k) :
    ((l.filterMap g).map f).sum = (l.map h).sum := by
  induction l with
  | nil => rfl
  | cons k rest ih =>
    obtain ⟨m, hm, hf⟩ := hall k (List.mem_cons_self _ _)
    rw [List.filterMap_cons, hm, List.map_cons, List.sum_cons, List.map_cons,
      List.sum_cons, hf, ih (fun q hq => hall q (List.mem_cons_of_mem _ hq))]

/-- Helper: the parsed-back lifetime totals sum to the qualifying
amounts' sum, for cent-valued inputs. -/
theorem lifetime_sum_eq_qual_sum (pdate : String → Option Date) (t : DonationTable)
    (hcent : ∀ r ∈ t.rows, centLiteral r.amount = true) :
    ((build_donation_metrics pdate t).map
        (fun m => (parse_currency_to_float m.lifetime).getD 0)).sum
      = ((qualRows pdate t).map (fun q => q.2.1)).sum := by
  have hamts : ∀ q ∈ qualRows pdate t, ∃ z : ℤ, q.2.1 = (z : ℚ) / 100 := by
    intro q hq
    unfold qualRows at hq
    obtain ⟨r, hr, hf⟩ := List.mem_filterMap.mp hq
    have hrow : r ∈ t.rows := by
      cases hts : t.hasStatus
      · rw [hts] at hr
        simpa using hr
      · rw [hts] at hr
        simp only [if_true] at hr
        exact (List.mem_filter.mp hr).1
    cases hpa : parse_currency_to_float r.amount with
    | none => rw [hpa] at hf; cases hf
    | some a =>
      cases hpd : pdate r.date with
      | none => rw [hpa, hpd] at hf; cases hf
      | some d =>
        rw [hpa, hpd] at hf
        obtain ⟨z, hz⟩ := centLiteral_parse (hcent r hrow)
        rw [hpa] at hz
        refine ⟨z, ?_⟩
        rw [← Option.some.inj hf]
        exact Option.some.inj hz
  have hall : ∀ pid ∈ dedupFirst ((qualRows pdate t).map (fun q => q.1.patronId)),
      ∃ m : MetricsRow, ((pickBest (fun w e => ! donBeats e w)
            ((qualRows pdate t).filter (fun q => q.1.patronId = pid))).map fun best =>
          { patronId := pid
            lifetime := format_currency
              ((((qualRows pdate t).filter (fun q => q.1.patronId = pid)).map
                (fun q => q.2.1)).sum)
            recentDate := isoRender best.2.2
            recentAmount := format_currency best.2.1 }) = some m
        ∧ (parse_currency_to_float m.lifetime).getD 0
            = (((qualRows pdate t).filter (fun q => q.1.patronId = pid)).map
                (fun q => q.2.1)).sum := by
    intro pid hpid
    have hkey : pid ∈ (qualRows pdate t).map (fun q => q.1.patronId) :=
      mem_dedupFirst_iff.mp hpid
    obtain ⟨q, hq, hqpid⟩ := List.mem_map.mp hkey
    have hent : q ∈ (qualRows pdate t).filter (fun q => q.1.patronId = pid) :=
      List.mem_filter.mpr ⟨hq, by simp [hqpid]⟩
    obtain ⟨z, hz⟩ := cent_sum (fun q => q.2.1)
      ((qualRows pdate t).filter (fun q => q.1.patronId = pid))
      (fun x hx => hamts x (List.mem_filter.mp hx).1)
    cases hes : (qualRows pdate t).filter (fun q => q.1.patronId = pid) with
    | nil => rw [hes] at hent; cases hent
    | cons x xs =>
      refine ⟨{ patronId := pid
                lifetime := format_currency (((x :: xs).map (fun q => q.2.1)).sum)
                recentDate := isoRender
                  ((xs.foldl (fun w e => if (! donBeats e w) then w else e) x)).2.2
                recentAmount := format_currency
                  ((xs.foldl (fun w e => if (! donBeats e w) then w else e) x)).2.1 },
        ?_, ?_⟩
      · rfl
      · show (parse_currency_to_float
            (format_currency (((x :: xs).map (fun q => q.2.1)).sum))).getD 0 = _
        rw [hes] at hz
        rw [hz, parse_format_cent z, Option.getD_some]
  unfold build_donation_metrics
  rw [sum_over_filterMap _ _ _ _ hall]
  exact sum_partition (fun (q : DonationRow × ℚ × Date) => q.1.patronId)
    (fun (q : DonationRow × ℚ × Date) => q.2.1) _ _
    (dedupFirst_nodup _)
    (fun x hx => mem_dedupFirst_iff.mpr (List.mem_map_of_mem _ hx))

/-- C6 (amended): for every date parser and donation table whose
amounts are cent-valued currency literals, the sum over all identities
of the per-identity lifetime donation totals — parsed back to numbers
from their currency-formatted strings (leading `'$'`, thousands
separators, two decimals) — equals the sum of the amounts of all
*qualifying* rows of the raw input: rows that are `"paid"` (when the
`Status` column exists) **and** whose amount and date both parse. A
`"paid"` row with an unparseable date or amount is excluded from the
totals, contrary to the claim as stated. -/
theorem donation_lifetime_sum_amended (pdate : String → Option Date) (t : DonationTable)
    (hcent : ∀ r ∈ t.rows, centLiteral r.amount = true) :
    ((build_donation_metrics pdate t).map
        (fun m => (parse_currency_to_float m.lifetime).getD 0)).sum
      = ((qualRows pdate t).map (fun q => q.2.1)).sum :=
  lifetime_sum_eq_qual_sum pdate t hcent

/-- The claim's right-hand side, as stated: the sum of all `"paid"`
donation amounts in the raw input (no status filtering when the column
is absent), restricted to identities that have at least one qualifying
transaction (an output row). -/
def specPaidSum (pdate : String → Option Date) (t : DonationTable) : ℚ :=
  ((t.rows.filter (fun r =>
      (¬ t.hasStatus ∨ lowerStr r.status = "paid")
        ∧ ∃ m ∈ build_donation_metrics pdate t, m.patronId = r.patronId)).map
    (fun r => (parse_currency_to_float r.amount).getD 0)).sum

/-- The C6 counterexample table: identity 1 has one fully qualifying
paid row of $10 and one paid row of $20 whose date does not parse. -/
def cexDonTable : DonationTable :=
  ⟨true, [⟨"1", "$10", "2024-01-01", "paid"⟩, ⟨"1", "$20", "bad", "paid"⟩]⟩

theorem cex_qualRows : qualRows parseIsoDate cexDonTable
    = [(⟨"1", "$10", "2024-01-01", "paid"⟩, ((10 : ℕ) : ℚ), ⟨2024, 1, 1⟩)] := by
  decide

/-- C6, counterexample to the claim as stated: identity 1 has paid
rows of $10 (qualifying) and $20 (unparseable date, so excluded from
aggregation). The lifetime totals sum to $10, but the sum of all
"paid" amounts of identities with a qualifying transaction is $30. -/
theorem donation_lifetime_sum_cex :
    ((build_donation_metrics parseIsoDate cexDonTable).map
        (fun m => (parse_currency_to_float m.lifetime).getD 0)).sum
      ≠ specPaidSum parseIsoDate cexDonTable := by
  have hlhs : ((build_donation_metrics parseIsoDate cexDonTable).map
      (fun m => (parse_currency_to_float m.lifetime).getD 0)).sum = 10 := by
    rw [lifetime_sum_eq_qual_sum parseIsoDate cexDonTable (by decide), cex_qualRows]
    norm_num
  obtain ⟨rec, hbe, hbp⟩ : ∃ rec : MetricsRow,
      build_donation_metrics parseIsoDate cexDonTable = [rec] ∧ rec.patronId = "1" := by
    unfold build_donation_metrics
    rw [cex_qualRows]
    exact ⟨_, rfl, rfl⟩
  have hrhs : specPaidSum parseIsoDate cexDonTable = 30 := by
    unfold specPaidSum
    rw [hbe]
    have hf : cexDonTable.rows.filter (fun r =>
        (¬ cexDonTable.hasStatus ∨ lowerStr r.status = "paid")
          ∧ ∃ m ∈ [rec], m.patronId = r.patronId) = cexDonTable.rows := by
      apply List.filter_eq_self.mpr
      intro r hr
      have hr2 : r = ⟨"1", "$10", "2024-01-01", "paid"⟩
          ∨ r = ⟨"1", "$20", "bad", "paid"⟩ := by
        simpa [cexDonTable] using hr
      simp only [decide_eq_true_eq]
      rcases hr2 with rfl | rfl <;>
        exact ⟨Or.inr (by decide), rec, List.mem_cons_self _ _, hbp⟩
    rw [hf]
    have h10 : (parse_currency_to_float "$10").getD 0 = ((10 : ℕ) : ℚ) := rfl
    have h20 : (parse_currency_to_float "$20").getD 0 = ((20 : ℕ) : ℚ) := rfl
    show ((cexDonTable.rows.map (fun r => (parse_currency_to_float r.amount).getD 0)).sum)
      = 30
    have hrows : cexDonTable.rows = [⟨"1", "$10", "2024-01-01", "paid"⟩,
        ⟨"1", "$20", "bad", "paid"⟩] := rfl
    rw [hrows, List.map_cons, List.map_cons, List.map_nil]
    show (parse_currency_to_float "$10").getD 0
        + ((parse_currency_to_float "$20").getD 0 + 0) = 30
    rw [h10, h20]
    norm_num
  rw [hlhs, hrhs]
  norm_num

/-- C6 witness: the amended theorem at the counterexample's table (all
amounts are cent-valued). -/
theorem donation_lifetime_sum_amended_witness :
    ((build_donation_metrics parseIsoDate cexDonTable).map
        (fun m => (parse_currency_to_float m.lifetime).getD 0)).sum
      = ((qualRows parseIsoDate cexDonTable).map (fun q => q.2.1)).sum :=
  donation_lifetime_sum_amended parseIsoDate cexDonTable (by decide)

/-! ## The Record Assembler (`transform`) -/

/-- `transform.fill_missing_person_names`. -/
def fill_missing_person_names (patronId first last : String) : String × String :=
  let f := cleanStr first
  let l := cleanStr last
  if f ≠ "" ∧ l ≠ "" then (f, l) else ("Unknown", "Unknown-" ++ patronId)

/-- `transform.classify_constituent_type`, lifted to the merged row: a
universe identity absent from the constituent table is classified
`"Person"` (the `pd.notna` guard); otherwise `"Company"` iff the
`Company` cell is non-empty. -/
def classify_row (crow : Option ConstituentRow) : String :=
  match crow with
  | some r => if cleanStr r.company ≠ "" then "Company" else "Person"
  | none => "Person"

/-- One row of the final constituents output, restricted to the
columns the verified claims are about (`CB Created At`, `CB Title`,
`CB Tags` and `CB Background Information` are display-only derivations
not referenced by any claim). -/
structure OutRow where
  id : String
  ctype : String
  firstName : String
  lastName : String
  companyName : String
  email1 : String
  email2 : String
  lifetime : String
  recentDate : String
  recentAmount : String
deriving DecidableEq

/-- The deduplicated constituent table used throughout `transform`
(the date parser yields comparable keys). -/
def dedupedC (pdate : String → Option Date) (constituents : List ConstituentRow) :
    List ConstituentRow :=
  dedupe_constituents_latest (fun s => (pdate s).map (fun d => (d.key : ℤ))) constituents

/-- The `(Email 1, Email 2)` cells merged onto a universe row: a left
join by `Patron ID` with missing cells as `""`. -/
def mergeEmailPair (ec : List EmailOut) (pid : String) : String × String :=
  match ec.find? (fun o => o.patronId = pid) with
  | some o => (o.email1, o.email2)
  | none => ("", "")

/-- The donation cells merged onto a universe row (`fillna("")`). -/
def mergeDonation (dm : List MetricsRow) (pid : String) : String × String × String :=
  match dm.find? (fun m => m.patronId = pid) with
  | some m => (m.lifetime, m.recentDate, m.recentAmount)
  | none => ("", "", "")

/-- `CB Company Name`: set only on rows classified `Company`. -/
def companyNameOf (c : List ConstituentRow) (pid : String) : String :=
  if classify_row (c.find? (fun r => r.patronId = pid)) = "Company" then
    match c.find? (fun r => r.patronId = pid) with
    | some r => cleanStr r.company
    | none => ""
  else ""

/-- `CB First Name` / `CB Last Name`: filled only on `Person` rows,
through the placeholder policy (missing merge cells are `""`). -/
def personNames (c : List ConstituentRow) (pid : String) : String × String :=
  if classify_row (c.find? (fun r => r.patronId = pid)) = "Company" then ("", "")
  else fill_missing_person_names pid
    (((c.find? (fun r => r.patronId = pid)).map (·.firstName)).getD "")
    (((c.find? (fun r => r.patronId = pid)).map (·.lastName)).getD "")

/-- One assembled output row: classification, name filling, and the
merges, including the final masking step that forces `Email 2` empty
whenever `Email 1` is empty. -/
def assembleRow (c : List ConstituentRow) (ec : List EmailOut) (dm : List MetricsRow)
    (pid : String) : OutRow :=
  { id := pid
    ctype := classify_row (c.find? (fun r => r.patronId = pid))
    firstName := (personNames c pid).1
    lastName := (personNames c pid).2
    companyName := companyNameOf c pid
    email1 := (mergeEmailPair ec pid).1
    email2 := if (mergeEmailPair ec pid).1 = "" then "" else (mergeEmailPair ec pid).2
    lifetime := (mergeDonation dm pid).1
    recentDate := (mergeDonation dm pid).2.1
    recentAmount := (mergeDonation dm pid).2.2 }

/-- The `transform` pipeline over the claim-relevant columns: dedupe
constituents, build email and donation columns, take the union of all
`Patron ID`s seen anywhere as the row universe, and assemble each row.
pandas left-joins with unique right keys are modelled with `find?`; a
cell missing after a merge (`NaN`) is the empty string, matching
`fillna("")` / `_clean_str` at every use site; the universe's pandas
order (sorted ascending by `Index.union`) is modelled as
first-appearance order, on which no verified property depends. -/
def transform_core (pdate : String → Option Date) (constituents : List ConstituentRow)
    (emails : List EmailRow) (donations : DonationTable) : List OutRow :=
  (dedupFirst ((dedupedC pdate constituents).map (·.patronId)
      ++ (build_email_columns (dedupedC pdate constituents) emails).map (·.patronId)
      ++ (build_donation_metrics pdate donations).map (·.patronId))).map
    (assembleRow (dedupedC pdate constituents)
      (build_email_columns (dedupedC pdate constituents) emails)
      (build_donation_metrics pdate donations))

theorem build_email_columns_distinct {cons : List ConstituentRow}
    {emails : List EmailRow} {o : EmailOut} (ho : o ∈ build_email_columns cons emails)
    (h2 : o.email2 ≠ "") : o.email1 ≠ o.email2 := by
  unfold build_email_columns at ho
  obtain ⟨pid, hpid, rfl⟩ := List.mem_map.mp ho
  match huniq : dedupFirst (emailCandidates cons emails pid) with
  | [] => rw [huniq] at h2; exact absurd rfl h2
  | [x] => rw [huniq] at h2; exact absurd rfl h2
  | x :: y :: rest =>
    have h2x : (if x = "" then "" else if y = x then "" else y) ≠ "" := by
      rw [huniq] at h2
      exact h2
    show x ≠ (if x = "" then "" else if y = x then "" else y)
    by_cases hx : x = ""
    · rw [if_pos hx] at h2x
      exact absurd rfl h2x
    · rw [if_neg hx] at h2x ⊢
      by_cases hyx : y = x
      · rw [if_pos hyx] at h2x
        exact absurd rfl h2x
      · rw [if_neg hyx] at h2x ⊢
        exact fun he => hyx he.symm

/-- C2: in every run of the pipeline and every row of the output
constituents table, if `CB Email 1 (Standardized)` is empty then
`CB Email 2 (Standardized)` is also empty, and if both are non-empty
they are distinct strings. -/
theorem output_email_invariant (pdate : String → Option Date)
    (constituents : List ConstituentRow) (emails : List EmailRow)
    (donations : DonationTable) :
    ∀ o ∈ transform_core pdate constituents emails donations,
      (o.email1 = "" → o.email2 = "")
        ∧ (o.email1 ≠ "" → o.email2 ≠ "" → o.email1 ≠ o.email2) := by
  intro o ho
  unfold transform_core at ho
  obtain ⟨pid, hpid, rfl⟩ := List.mem_map.mp ho
  constructor
  · intro h1
    have h1x : (mergeEmailPair (build_email_columns (dedupedC pdate constituents) emails)
        pid).1 = "" := h1
    show (if (mergeEmailPair (build_email_columns (dedupedC pdate constituents) emails)
          pid).1 = "" then ""
        else (mergeEmailPair (build_email_columns (dedupedC pdate constituents) emails)
          pid).2) = ""
    rw [if_pos h1x]
  · intro h1 h2
    have h1' : (mergeEmailPair (build_email_columns (dedupedC pdate constituents) emails)
        pid).1 ≠ "" := h1
    have h2' : (assembleRow (dedupedC pdate constituents)
        (build_email_columns (dedupedC pdate constituents) emails)
        (build_donation_metrics pdate donations) pid).email2
        = (mergeEmailPair (build_email_columns (dedupedC pdate constituents) emails)
          pid).2 := by
      show (if _ = "" then "" else _) = _
      rw [if_neg h1']
    rw [h2'] at h2 ⊢
    show (mergeEmailPair _ pid).1 ≠ _
    unfold mergeEmailPair at h1' h2 ⊢
    cases hfind : (build_email_columns (dedupedC pdate constituents) emails).find?
        (fun o => o.patronId = pid) with
    | none =>
      rw [hfind] at h1'
      exact absurd rfl h1'
    | some eo =>
      rw [hfind] at h2
      exact build_email_columns_distinct (List.mem_of_find?_eq_some hfind) h2

/-- The one output row of the concrete C2 witness run. -/
def cexOut : OutRow :=
  ⟨"1", "Person", "Jane", "Doe", "", "jane@example.com", "", "", "", ""⟩

/-- C2 witness: the invariant at the concrete row of a concrete run. -/
theorem output_email_invariant_witness :
    cexOut ∈ transform_core parseIsoDate [janeRow] [⟨"1", "jane@example.com"⟩] ⟨true, []⟩
    ∧ ((cexOut.email1 = "" → cexOut.email2 = "")
        ∧ (cexOut.email1 ≠ "" → cexOut.email2 ≠ "" → cexOut.email1 ≠ cexOut.email2)) :=
  ⟨by decide, output_email_invariant parseIsoDate [janeRow] [⟨"1", "jane@example.com"⟩]
    ⟨true, []⟩ cexOut (by decide)⟩

theorem unknown_append_ne (pid : String) : "Unknown-" ++ pid ≠ "" := by
  intro h
  have h2 := congrArg String.data h
  rw [String.data_append] at h2
  rcases List.append_eq_nil.mp h2 with ⟨h3, -⟩
  cases h3

/-- C9: in every output constituents table, every row classified
`Person` has non-empty `CB First Name` and `CB Last Name`, every row
classified `Company` has a non-empty `CB Company Name`, and the
placeholder policy fires exactly as claimed: whenever either raw name
is blank (which includes identities absent from the constituent table,
whose merge cells are blank), the first name becomes `"Unknown"` and
the last name `"Unknown-"` suffixed by the identity key. -/
theorem person_company_fields (pdate : String → Option Date)
    (constituents : List ConstituentRow) (emails : List EmailRow)
    (donations : DonationTable) :
    (∀ o ∈ transform_core pdate constituents emails donations,
        (o.ctype = "Person" → o.firstName ≠ "" ∧ o.lastName ≠ "")
          ∧ (o.ctype = "Company" → o.companyName ≠ ""))
    ∧ ∀ pid f l, (cleanStr f = "" ∨ cleanStr l = "") →
        fill_missing_person_names pid f l = ("Unknown", "Unknown-" ++ pid) := by
  constructor
  · intro o ho
    unfold transform_core at ho
    obtain ⟨pid, hpid, rfl⟩ := List.mem_map.mp ho
    set c := dedupedC pdate constituents with hc
    constructor
    · intro hP
      have hP' : classify_row (c.find? (fun r => r.patronId = pid)) = "Person" := hP
      have hnotC : ¬ classify_row (c.find? (fun r => r.patronId = pid)) = "Company" := by
        rw [hP']
        decide
      have hnames : (personNames c pid)
          = fill_missing_person_names pid
            (((c.find? (fun r => r.patronId = pid)).map (·.firstName)).getD "")
            (((c.find? (fun r => r.patronId = pid)).map (·.lastName)).getD "") := by
        unfold personNames
        rw [if_neg hnotC]
      show (personNames c pid).1 ≠ "" ∧ (personNames c pid).2 ≠ ""
      rw [hnames]
      unfold fill_missing_person_names
      by_cases hcond : cleanStr (((c.find? (fun r => r.patronId = pid)).map
            (·.firstName)).getD "") ≠ ""
          ∧ cleanStr (((c.find? (fun r => r.patronId = pid)).map (·.lastName)).getD "") ≠ ""
      · rw [if_pos hcond]
        exact hcond
      · rw [if_neg hcond]
        refine ⟨?_, unknown_append_ne pid⟩
        show ("Unknown" : String) ≠ ""
        decide
    · intro hC
      have hC' : classify_row (c.find? (fun r => r.patronId = pid)) = "Company" := hC
      show companyNameOf c pid ≠ ""
      unfold companyNameOf
      rw [if_pos hC']
      cases hfind : c.find? (fun r => r.patronId = pid) with
      | none =>
        rw [hfind] at hC'
        exact absurd hC' (by decide)
      | some r =>
        rw [hfind] at hC'
        have hC2 : (if cleanStr r.company ≠ "" then "Company" else "Person")
            = "Company" := hC'
        show cleanStr r.company ≠ ""
        by_cases hcomp : cleanStr r.company ≠ ""
        · exact hcomp
        · rw [if_neg hcomp] at hC2
          exact absurd hC2 (by decide)
  · intro pid f l hblank
    unfold fill_missing_person_names
    rw [if_neg]
    intro hcond
    rcases hblank with h | h
    · exact hcond.1 h
    · exact hcond.2 h

/-- C9 witness: the fields invariant at a concrete run, and the
placeholder policy at a blank last name. -/
theorem person_company_fields_witness :
    ((∀ o ∈ transform_core parseIsoDate [janeRow] [⟨"1", "jane@example.com"⟩] specDonTable,
        (o.ctype = "Person" → o.firstName ≠ "" ∧ o.lastName ≠ "")
          ∧ (o.ctype = "Company" → o.companyName ≠ ""))
    ∧ ∀ pid f l, (cleanStr f = "" ∨ cleanStr l = "") →
        fill_missing_person_names pid f l = ("Unknown", "Unknown-" ++ pid)) :=
  person_company_fields parseIsoDate [janeRow] [⟨"1", "jane@example.com"⟩] specDonTable

/-! ## The Tag Counter -/

/-- The output order of the tags table: count descending, then tag
name ascending. -/
def tagOrder (a b : String × ℕ) : Prop :=
  b.2 < a.2 ∨ (a.2 = b.2 ∧ a.1 ≤ b.1)

instance : DecidableRel tagOrder := fun a b => by
  unfold tagOrder
  infer_instance

instance : IsTotal (String × ℕ) tagOrder := ⟨by
  intro a b
  unfold tagOrder
  rcases Nat.lt_trichotomy a.2 b.2 with h | h | h
  · exact Or.inr (Or.inl h)
  · rcases le_total a.1 b.1 with h2 | h2
    · exact Or.inl (Or.inr ⟨h, h2⟩)
    · exact Or.inr (Or.inr ⟨h.symm, h2⟩)
  · exact Or.inl (Or.inl h)⟩

instance : IsTrans (String × ℕ) tagOrder := ⟨by
  intro a b c hab hbc
  unfold tagOrder at *
  rcases hab with h1 | ⟨h1e, h1n⟩ <;> rcases hbc with h2 | ⟨h2e, h2n⟩
  · exact Or.inl (by omega)
  · exact Or.inl (by omega)
  · exact Or.inl (by omega)
  · exact Or.inr ⟨by omega, le_trans h1n h2n⟩⟩

/-- The Tag Counter over the per-identity final tag lists: explode to
`(identity, tag)` rows, de-duplicate the rows (`drop_duplicates`),
count distinct identities per distinct tag (`groupby(...).nunique()`),
and sort by count descending then tag name ascending. The tag names
are distinct, so the final `sort_values` determines the order fully
and the unstable sort kind is immaterial. -/
def tagCounts (pairs : List (String × List String)) : List (String × ℕ) :=
  List.insertionSort tagOrder
    ((dedupFirst ((dedupFirst (pairs.bind (fun p => p.2.map (fun t => (p.1, t))))).map
        (·.2))).map
      (fun t => (t, (dedupFirst (((dedupFirst (pairs.bind
          (fun p => p.2.map (fun t => (p.1, t))))).filter
            (fun q => q.2 = t)).map (·.1))).length)))

/-- The tags table of `transform`: the counter applied to the deduped
constituents' final (post-mapping) tag lists. -/
def transform_tags (pdate : String → Option Date) (constituents : List ConstituentRow)
    (mapping : List (String × String)) : List (String × ℕ) :=
  tagCounts ((dedupedC pdate constituents).map
    (fun r => (r.patronId, apply_tag_mapping (split_tags r.tags) mapping)))

theorem dedupFirst_length {α : Type} [DecidableEq α] (l : List α) :
    (dedupFirst l).length = l.toFinset.card := by
  have hfs : (dedupFirst l).toFinset = l.toFinset := by
    apply Finset.ext
    intro x
    rw [List.mem_toFinset, List.mem_toFinset]
    exact mem_dedupFirst_iff
  rw [← hfs, List.toFinset_card_of_nodup (dedupFirst_nodup l)]

theorem mem_rows_iff {pairs : List (String × List String)} {x t : String} :
    (x, t) ∈ pairs.bind (fun p => p.2.map (fun t => (p.1, t)))
      ↔ ∃ p ∈ pairs, p.1 = x ∧ t ∈ p.2 := by
  rw [List.mem_bind]
  constructor
  · rintro ⟨p, hp, hmem⟩
    obtain ⟨t2, ht2, heq⟩ := List.mem_map.mp hmem
    obtain ⟨h1, h2⟩ := Prod.mk.injEq _ _ _ _ ▸ heq
    exact ⟨p, hp, h1, h2 ▸ ht2⟩
  · rintro ⟨p, hp, h1, h2⟩
    exact ⟨p, hp, List.mem_map.mpr ⟨t, h2, by rw [h1]⟩⟩

/-- The per-tag distinct-identity count equals the number of pairs
whose tag list contains the tag, when the identities are distinct. -/
theorem tag_count_eq {pairs : List (String × List String)}
    (hnodup : (pairs.map (·.1)).Nodup) (t : String) :
    (dedupFirst (((dedupFirst (pairs.bind (fun p => p.2.map (fun t => (p.1, t))))).filter
        (fun q => q.2 = t)).map (·.1))).length
      = (pairs.filter (fun p => t ∈ p.2)).length := by
  rw [dedupFirst_length]
  have hmem : ∀ x : String,
      x ∈ ((dedupFirst (pairs.bind (fun p => p.2.map (fun t => (p.1, t))))).filter
        (fun q => q.2 = t)).map (·.1)
        ↔ x ∈ (pairs.filter (fun p => t ∈ p.2)).map (·.1) := by
    intro x
    rw [List.mem_map, List.mem_map]
    constructor
    · rintro ⟨q, hq, rfl⟩
      obtain ⟨hqu, hqt⟩ := List.mem_filter.mp hq
      have hqt2 : q.2 = t := by simpa using hqt
      have hrow : (q.1, t) ∈ pairs.bind (fun p => p.2.map (fun t => (p.1, t))) := by
        rw [← hqt2]
        exact mem_dedupFirst_iff.mp hqu
      obtain ⟨p, hp, h1, h2⟩ := mem_rows_iff.mp hrow
      exact ⟨p, List.mem_filter.mpr ⟨hp, by simpa using h2⟩, h1⟩
    · rintro ⟨p, hp, rfl⟩
      obtain ⟨hpp, hpt⟩ := List.mem_filter.mp hp
      have hpt2 : t ∈ p.2 := by simpa using hpt
      refine ⟨(p.1, t), List.mem_filter.mpr
        ⟨mem_dedupFirst_iff.mpr (mem_rows_iff.mpr ⟨p, hpp, rfl, hpt2⟩), by simp⟩, rfl⟩
  have hfs : (((dedupFirst (pairs.bind (fun p => p.2.map (fun t => (p.1, t))))).filter
      (fun q => q.2 = t)).map (·.1)).toFinset
      = ((pairs.filter (fun p => t ∈ p.2)).map (·.1)).toFinset := by
    apply Finset.ext
    intro x
    rw [List.mem_toFinset, List.mem_toFinset]
    exact hmem x
  rw [hfs]
  have hnd : ((pairs.filter (fun p => t ∈ p.2)).map (·.1)).Nodup :=
    List.Nodup.sublist (List.Sublist.map _ (List.filter_sublist pairs)) hnodup
  rw [List.toFinset_card_of_nodup hnd, List.length_map]

theorem tagCounts_spec (pairs : List (String × List String))
    (hnodup : (pairs.map (·.1)).Nodup) :
    ((tagCounts pairs).map (·.1)).Nodup
    ∧ (∀ t c, (t, c) ∈ tagCounts pairs ↔
        ((∃ p ∈ pairs, t ∈ p.2) ∧ c = (pairs.filter (fun p => t ∈ p.2)).length))
    ∧ (tagCounts pairs).Sorted tagOrder := by
  have hperm : List.Perm (tagCounts pairs)
      ((dedupFirst ((dedupFirst (pairs.bind (fun p => p.2.map (fun t => (p.1, t))))).map
          (·.2))).map
        (fun t => (t, (dedupFirst (((dedupFirst (pairs.bind
            (fun p => p.2.map (fun t => (p.1, t))))).filter
              (fun q => q.2 = t)).map (·.1))).length))) :=
    List.perm_insertionSort tagOrder _
  have htags : ∀ t : String,
      t ∈ dedupFirst ((dedupFirst (pairs.bind (fun p => p.2.map (fun t => (p.1, t))))).map
          (·.2))
        ↔ ∃ p ∈ pairs, t ∈ p.2 := by
    intro t
    rw [mem_dedupFirst_iff, List.mem_map]
    constructor
    · rintro ⟨q, hq, rfl⟩
      have hrow : (q.1, q.2) ∈ pairs.bind (fun p => p.2.map (fun t => (p.1, t))) :=
        mem_dedupFirst_iff.mp hq
      obtain ⟨p, hp, -, h2⟩ := mem_rows_iff.mp hrow
      exact ⟨p, hp, h2⟩
    · rintro ⟨p, hp, ht⟩
      exact ⟨(p.1, t), mem_dedupFirst_iff.mpr (mem_rows_iff.mpr ⟨p, hp, rfl, ht⟩), rfl⟩
  refine ⟨?_, ?_, ?_⟩
  · have hmapped : ((tagCounts pairs).map (·.1)).Perm
        ((dedupFirst ((dedupFirst (pairs.bind (fun p => p.2.map (fun t => (p.1, t))))).map
          (·.2))).map
          ((·.1) ∘ (fun t => (t, (dedupFirst (((dedupFirst (pairs.bind
              (fun p => p.2.map (fun t => (p.1, t))))).filter
                (fun q => q.2 = t)).map (·.1))).length)))) := by
      rw [← List.map_map]
      exact hperm.map _
    rw [(hmapped.nodup_iff)]
    have : ((dedupFirst ((dedupFirst (pairs.bind (fun p => p.2.map (fun t => (p.1, t))))).map
        (·.2))).map
        ((·.1) ∘ (fun t => (t, (dedupFirst (((dedupFirst (pairs.bind
            (fun p => p.2.map (fun t => (p.1, t))))).filter
              (fun q => q.2 = t)).map (·.1))).length))))
        = dedupFirst ((dedupFirst (pairs.bind (fun p => p.2.map (fun t => (p.1, t))))).map
          (·.2)) := by
      rw [show ((·.1) ∘ (fun t => (t, (dedupFirst (((dedupFirst (pairs.bind
          (fun p => p.2.map (fun t => (p.1, t))))).filter
            (fun q => q.2 = t)).map (·.1))).length)) : String → String) = id from rfl]
      exact List.map_id _
    rw [this]
    exact dedupFirst_nodup _
  · intro t c
    rw [hperm.mem_iff, List.mem_map]
    constructor
    · rintro ⟨t2, ht2, heq⟩
      obtain ⟨h1, h2⟩ := Prod.mk.injEq _ _ _ _ ▸ heq
      subst h1
      exact ⟨(htags t2).mp ht2, by rw [← h2, tag_count_eq hnodup]⟩
    · rintro ⟨hex, hc⟩
      refine ⟨t, (htags t).mpr hex, ?_⟩
      rw [tag_count_eq hnodup, ← hc]
  · exact List.sorted_insertionSort tagOrder _

theorem dedupedC_keys (pdate : String → Option Date) (cons : List ConstituentRow) :
    (dedupedC pdate cons).map (·.patronId) = dedupFirst (cons.map (·.patronId)) := by
  unfold dedupedC dedupe_constituents_latest
  apply map_filterMap_patronId
  intro pid hpid
  have hkey : pid ∈ cons.map (·.patronId) := mem_dedupFirst_iff.mp hpid
  obtain ⟨row, hrow, hrowpid⟩ := List.mem_map.mp hkey
  obtain ⟨n, hn⟩ := List.mem_iff_get?.mp hrow
  have henum : (n, row) ∈ cons.enum := List.mem_enum_iff_get?.mpr hn
  have hent : (n, row) ∈ (cons.enum).filter (fun e => e.2.patronId = pid) :=
    List.mem_filter.mpr ⟨henum, by simp [hrowpid]⟩
  cases hes : (cons.enum).filter (fun e => e.2.patronId = pid) with
  | nil => rw [hes] at hent; cases hent
  | cons x xs =>
    have hpb : pickBest (fun w e =>
          ! dedupeBeats (fun s => (pdate s).map (fun d => (d.key : ℤ))) e w) (x :: xs)
        = some (xs.foldl (fun w e =>
          if (! dedupeBeats (fun s => (pdate s).map (fun d => (d.key : ℤ))) e w)
          then w else e) x) := rfl
    obtain ⟨hmem, -⟩ := pickBest_spec _
      (dedupeBetter_total (fun s => (pdate s).map (fun d => (d.key : ℤ))))
      (dedupeBetter_trans (fun s => (pdate s).map (fun d => (d.key : ℤ))))
      (x :: xs) _ hpb
    refine ⟨(xs.foldl (fun w e =>
        if (! dedupeBeats (fun s => (pdate s).map (fun d => (d.key : ℤ))) e w)
        then w else e) x).2, ?_, ?_⟩
    · rw [hpb]
      rfl
    · have hin : (xs.foldl (fun w e =>
          if (! dedupeBeats (fun s => (pdate s).map (fun d => (d.key : ℤ))) e w)
          then w else e) x)
          ∈ (cons.enum).filter (fun e => e.2.patronId = pid) := by
        rw [hes]
        exact hmem
      have := (List.mem_filter.mp hin).2
      simpa using this

/-- C8: for every run (every date parser, constituent table and tag
mapping), the tags output has exactly one row per distinct
post-normalization tag (distinct names, membership iff some identity
carries the tag), each row's count equals the number of identities of
the deduplicated table whose final tag list contains that tag, the
table is sorted by count descending then name ascending, and an input
with no tags yields the empty table rather than an error. -/
theorem tag_counter_table_spec (pdate : String → Option Date)
    (constituents : List ConstituentRow) (mapping : List (String × String)) :
    ((transform_tags pdate constituents mapping).map (·.1)).Nodup
    ∧ (∀ t c, (t, c) ∈ transform_tags pdate constituents mapping ↔
        ((∃ r ∈ dedupedC pdate constituents,
            t ∈ apply_tag_mapping (split_tags r.tags) mapping)
          ∧ c = ((dedupedC pdate constituents).filter
              (fun r => t ∈ apply_tag_mapping (split_tags r.tags) mapping)).length))
    ∧ (transform_tags pdate constituents mapping).Sorted tagOrder
    ∧ ((∀ r ∈ dedupedC pdate constituents,
          apply_tag_mapping (split_tags r.tags) mapping = []) →
        transform_tags pdate constituents mapping = []) := by
  have hnodup : (((dedupedC pdate constituents).map
      (fun r => (r.patronId, apply_tag_mapping (split_tags r.tags) mapping))).map
        (·.1)).Nodup := by
    rw [List.map_map]
    have : ((fun x => x.1) ∘ (fun r : ConstituentRow =>
        (r.patronId, apply_tag_mapping (split_tags r.tags) mapping)))
        = (·.patronId) := rfl
    rw [this, dedupedC_keys]
    exact dedupFirst_nodup _
  obtain ⟨hnd, hmem, hsort⟩ := tagCounts_spec _ hnodup
  refine ⟨hnd, ?_, hsort, ?_⟩
  · intro t c
    unfold transform_tags
    rw [hmem t c]
    constructor
    · rintro ⟨⟨p, hp, ht⟩, hc⟩
      obtain ⟨r, hr, rfl⟩ := List.mem_map.mp hp
      refine ⟨⟨r, hr, ht⟩, ?_⟩
      rw [hc, List.filter_map, List.length_map]
      rfl
    · rintro ⟨⟨r, hr, ht⟩, hc⟩
      refine ⟨⟨(r.patronId, apply_tag_mapping (split_tags r.tags) mapping),
        List.mem_map_of_mem _ hr, ht⟩, ?_⟩
      rw [hc, List.filter_map, List.length_map]
      rfl
  · intro hempty
    have hbind : ((dedupedC pdate constituents).map
        (fun r => (r.patronId, apply_tag_mapping (split_tags r.tags) mapping))).bind
        (fun p => p.2.map (fun t => (p.1, t))) = [] := by
      rw [List.bind_eq_nil]
      intro p hp
      obtain ⟨r, hr, rfl⟩ := List.mem_map.mp hp
      rw [hempty r hr]
      rfl
    unfold transform_tags tagCounts
    rw [hbind]
    rfl

/-! ## Output validation: the tags report (`validate.py`) -/

/-- A rendered tags table as `validate_tags` receives it: a header row
of column names and data rows of cells aligned with the header.  A
pandas DataFrame is `empty` when either axis has length zero, i.e. no
data rows or no columns. -/
structure TagsTable where
  cols : List String
  rows : List (List String)

/-- The cells of one named column, in row order; a row too short for
the column index contributes the empty cell (missing data reads as
NaN, modelled `""`). -/
def colCells (t : TagsTable) (c : String) : List String :=
  match t.cols.findIdx? (fun x => x = c) with
  | none => []
  | some i => t.rows.map (fun r => (r.get? i).getD "")

/-- `validate_tags` from `validate.py`.  `pnum` models
`pd.to_numeric(..., errors="coerce")`: `none` is a coerced NaN.  The
empty-table early return comes before every column check; afterwards
each required column missing appends one issue, and a present count
column with any non-numeric cell appends one issue. -/
def validate_tags (pnum : String → Option ℚ) (t : TagsTable) : List String :=
  if t.rows.isEmpty || t.cols.isEmpty then []
  else
    (if "CB Tag Name" ∈ t.cols then [] else ["Missing required column: CB Tag Name"])
    ++ (if "CB Tag Count" ∈ t.cols then []
        else ["Missing required column: CB Tag Count"])
    ++ (if "CB Tag Count" ∈ t.cols then
          (if (colCells t "CB Tag Count").any (fun s => (pnum s).isNone)
            then ["Non-numeric CB Tag Count values found"] else [])
        else [])

/-- C10: for every numeric parser, `validate_tags` returns no issues
on any table with no data rows (whatever its columns, even without the
required ones) and on any table with no columns; the required-column
check does fire on a non-empty table, as the concrete one-row table
with a single wrong column shows. -/
theorem validate_tags_empty_ok (pnum : String → Option ℚ) :
    (∀ cols, validate_tags pnum ⟨cols, []⟩ = [])
    ∧ (∀ rows, validate_tags pnum ⟨[], rows⟩ = [])
    ∧ validate_tags pnum ⟨["X"], [["v"]]⟩
        = ["Missing required column: CB Tag Name",
            "Missing required column: CB Tag Count"] := by
  refine ⟨?_, ?_, ?_⟩
  · intro cols
    simp [validate_tags, List.isEmpty]
  · intro rows
    simp [validate_tags, List.isEmpty]
  · rfl
